import Mathlib

set_option autoImplicit false
set_option maxHeartbeats 1000000

/-!
A verification development for the `lua-template` library.

Part 1 models the associative array of `src/table.c` (open addressing with
double hashing and Brent-style insertion placement).  Part 2 models the
substitution encoders and parts of the compiler and interpreter of
`src/template.c`.  Machine integers are modelled as `Nat`/`Int` with explicit
reduction modulo `2 ^ 64` where the C code relies on `uint64_t` wrap-around.
Loops are modelled as structural recursion on an explicit fuel argument; every
use instantiates the fuel with a value that the corresponding C loop can never
exceed (the loop bounds are part of the proofs).
-/

namespace LuaTemplate

/-! ### Associative array: data model (src/table.h) -/

/-- Entry states of `table_entry_state_e`. -/
inductive EntryState : Type where
  | unused
  | set
  | deleted
deriving DecidableEq, Repr, Inhabited

/-- One `table_entry_t`.  The `value` field is an opaque machine word
(`void *` in C); `0` plays the role of the zero-initialised field of a
fresh (`calloc`ed) entry.  A fresh entry matches `default`. -/
structure Entry : Type where
  key : String
  value : Nat
  hash : Nat
  state : EntryState
deriving DecidableEq, Repr, Inhabited

/-- A `table_t`.  `entries` always has length `alloc` in reachable states.
The `dup`/`free` ownership flags only control `strdup`/`free` calls in C and
have no observable effect on the pure model, so only `ci` is kept. -/
structure Table : Type where
  alloc : Nat
  load : Nat
  count : Nat
  entries : List Entry
  ci : Bool
deriving DecidableEq, Repr, Inhabited

/-! ### Hashing (table_hash) -/

/-- `tolower` on a byte, as used for the case-insensitive hash (ASCII). -/
def tolowerByte (b : Nat) : Nat :=
  if 65 ≤ b ∧ b ≤ 90 then b + 32 else b

/-- One step of FNV-1a on a 64-bit accumulator. -/
def fnvStep (h b : Nat) : Nat :=
  ((h ^^^ b) * 1099511628211) % 2 ^ 64

/-- `table_hash`: FNV-1a, iterating over the key bytes from the last byte to
the first (`while (p > key) hash ^= *--p`). -/
def table_hash (ci : Bool) (key : String) : Nat :=
  ((key.data.map (fun c => if ci then tolowerByte c.toNat else c.toNat)).reverse).foldl
    fnvStep 14695981039346656037

/-! ### Size table and load threshold (table_sizes, table_size, table_load) -/

def table_sizes : List Nat :=
  [3, 5, 7, 11, 13, 17, 23, 29, 41, 53, 67, 89, 127, 157, 211, 277, 373, 499, 659, 877, 1171,
   1553, 2081, 2767, 3691, 4909, 6547, 8731, 11633, 15511, 20681, 27581, 36749, 49003, 65353,
   87107, 116141, 154871, 206477, 275299, 367069, 489427, 652559, 870083, 1160111, 1546799,
   2062391, 2749847, 3666461, 4888619, 6518173, 8690917, 11587841, 15450437, 20600597,
   27467443, 36623261, 48831017, 65107997, 86810681, 115747549, 154330079, 205773427,
   274364561, 365819417, 487759219, 650345651, 867127501, 1156170011, 1541560037, 2055413317,
   2740551103, 3654068141, 4872090871, 6496121063, 8661494753, 11548659701, 15398212901,
   20530950533, 27374600677, 36499467569, 48665956771, 64887942367, 86517256433,
   115356341911, 153808455923, 205077941191, 273437254897, 364583006561, 486110675443,
   648147567293, 864196756231, 1152262341641, 1536349788871, 2048466385123, 2731288513529,
   3641718017983, 4855624023953, 6474165365293, 8632220487029, 11509627316059,
   15346169754719, 20461559672951, 27282079563967, 36376106085223, 48501474780299,
   64668633040457, 86224844053847, 114966458738489, 153288611651291, 204384815535079,
   272513087380099]

def table_sizes_n : Nat := 112

/-- The binary-search loop of `table_size`.  `lower` and `upper` are C `int`s
(`upper` may become `-1`), hence `Int`.  The fuel dominates the number of loop
iterations; `table_size` instantiates it with a value larger than the table
length, which the halving loop can never exceed. -/
def sizeSearch (size : Nat) : Int → Int → Nat → Int
  | lower, _, 0 => lower
  | lower, upper, fuel + 1 =>
    if lower ≤ upper then
      let mid := (lower + upper) / 2
      if table_sizes.getD mid.toNat 0 < size then
        sizeSearch size (mid + 1) upper fuel
      else
        sizeSearch size lower (mid - 1) fuel
    else
      lower

/-- `table_size`: smallest entry of `table_sizes` that is `≥ size`, or `none`
(the C code returns `(size_t)-1`) when `size` exceeds the largest entry. -/
def table_size (size : Nat) : Option Nat :=
  let lower := sizeSearch size 0 ((table_sizes_n : Int) - 1) 200
  if (table_sizes_n : Int) ≤ lower then none
  else some (table_sizes.getD lower.toNat 0)

/-- `table_load`: `(alloc >> 1) + (alloc >> 2) + (alloc >> 3)`. -/
def table_load (alloc : Nat) : Nat :=
  alloc / 2 + alloc / 4 + alloc / 8

/-- `table_create`.  Allocation of the `table_t` itself and of the entry
array is assumed to succeed; the only failure modelled is the size-table
overflow (the C code also fails on `calloc` failure). -/
def table_create (load : Nat) : Option Table :=
  let alloc := load + (if load < table_sizes.getD (table_sizes_n - 1) 0 then load / 7 + 3 else 0)
  match table_size alloc with
  | none => none
  | some a => some { alloc := a, load := table_load a, count := 0,
                     entries := List.replicate a default, ci := false }

/-! ### Lookup (table_find, table_get) -/

/-- Key comparison: `strcasecmp` when case-insensitive, else `strcmp`. -/
def keyEq (ci : Bool) (a b : String) : Bool :=
  if ci then (a.data.map (fun c => tolowerByte c.toNat)) = (b.data.map (fun c => tolowerByte c.toNat))
  else a = b

/-- The probe loop of `table_find`.  `r` is the primary slot, `q` the probe
step.  Returns the index of the matching entry.  Each iteration advances `h`
by `q` once; the loop stops on an `unused` slot, on a key match, or when the
walk returns to `r`.  Fuel `alloc` dominates the iteration count (the walk
returns to `r` after at most `alloc` steps). -/
def findLoop (entries : List Entry) (alloc : Nat) (ci : Bool) (key : String) (hash r q : Nat) :
    Nat → Nat → Option Nat
  | _, 0 => none
  | h, fuel + 1 =>
    let e := entries.getD h default
    if e.state = EntryState.unused then none
    else if e.hash = hash ∧ keyEq ci e.key key then some h
    else
      let h2 := (h + q) % alloc
      if h2 = r then none else findLoop entries alloc ci key hash r q h2 fuel

/-- `table_find`, returning the index of the entry instead of a pointer. -/
def table_find (t : Table) (key : String) (hash : Nat) : Option Nat :=
  let r := hash % t.alloc
  let q := hash % (t.alloc - 2) + 1
  findLoop t.entries t.alloc t.ci key hash r q r t.alloc

/-- `table_get`.  Returns `none` where C returns `NULL`. -/
def table_get (t : Table) (key : String) : Option Nat :=
  match table_find t key (table_hash t.ci key) with
  | none => none
  | some i => some ((t.entries.getD i default).value)

/-! ### Insertion placement (table_insert) -/

/-- First walk of `table_insert`: follow the probe chain of the new key past
`set` entries; returns the first non-`set` slot and the 1-based chain length
`len_worst` at that slot.  Fuel `alloc` dominates the walk whenever a
non-`set` slot lies on the chain. -/
def naiveWalk (entries : List Entry) (alloc q : Nat) : Nat → Nat → Nat → Nat × Nat
  | h, len, 0 => (h, len)
  | h, len, fuel + 1 =>
    if (entries.getD h default).state = EntryState.set then
      naiveWalk entries alloc q ((h + q) % alloc) (len + 1) fuel
    else
      (h, len)

/-- Inner loop of the relocation scan: walk the occupying entry's own probe
chain (step `qm`) looking for a non-`set` slot.  Returns the slot found and
its distance `len_move`, or `none` once `len + len_move ≥ len_worst - 1`
(comment in C: "zero-sum at best otherwise").  The free-slot test precedes
the bound test, exactly as in the C loop. -/
def innerScan (entries : List Entry) (alloc qm : Nat) (len lw : Nat) :
    Nat → Nat → Nat → Option (Nat × Nat)
  | _, _, 0 => none
  | hm, lm, fuel + 1 =>
    if (entries.getD hm default).state ≠ EntryState.set then some (hm, lm)
    else if lw - 1 ≤ len + lm then none
    else innerScan entries alloc qm len lw ((hm + qm) % alloc) (lm + 1) fuel

/-- Outer loop (do/while) of the relocation scan of `table_insert`.  The
candidate is `(entry_move_old, entry_move_new, len_entry_move)`; a newly
found candidate unconditionally overwrites the previous one.  Besides the
data the C code keeps, the result carries the list of all admitted
candidates as `(len, len_move, old, new)` records, in the order they were
admitted; the last list element (when any) always describes the surviving
candidate. -/
def outerScan (entries : List Entry) (alloc q lw : Nat) :
    Nat → Nat → Option (Nat × Nat × Nat) → Nat →
    Option (Nat × Nat × Nat) × Nat × Nat × List (Nat × Nat × Nat × Nat)
  | h, len, cand, 0 => (cand, h, len, [])
  | h, len, cand, fuel + 1 =>
    let qm := (entries.getD h default).hash % (alloc - 2) + 1
    let res := innerScan entries alloc qm len lw ((h + qm) % alloc) 1 lw
    let cand' := match res with
      | some (hn, lm) => some (h, hn, lm)
      | none => cand
    let trace := match res with
      | some (hn, lm) => [(len, lm, h, hn)]
      | none => []
    let h' := (h + q) % alloc
    let len' := len + 1
    if len' < lw - 1 ∧ (match cand' with
        | none => true
        | some c => decide (len' < c.2.2)) = true then
      let rest := outerScan entries alloc q lw h' len' cand' fuel
      (rest.1, rest.2.1, rest.2.2.1, trace ++ rest.2.2.2)
    else
      (cand', h', len', trace)

/-- `table_insert` (Brent's method).  Returns the updated table (a relocation
copies one entry) and the index of the slot handed back to the caller, which
then overwrites that slot. -/
def table_insert (t : Table) (hash : Nat) : Table × Nat :=
  let h0 := hash % t.alloc
  let q := hash % (t.alloc - 2) + 1
  let w := naiveWalk t.entries t.alloc q h0 1 t.alloc
  if w.2 ≤ 2 then (t, w.1)
  else
    match outerScan t.entries t.alloc q w.2 h0 1 none w.2 with
    | (some (old, new, _), _, _, _) =>
      ({ t with entries := t.entries.set new (t.entries.getD old default) }, old)
    | (none, hf, _, _) => (t, (hf + q) % t.alloc)

/-! ### Removal, rehash, set (table_remove, table_rehash, table_set) -/

/-- `table_remove`: mark the entry deleted and decrement the count (the
`free` calls controlled by the ownership flags have no pure effect). -/
def table_remove (t : Table) (i : Nat) : Table :=
  { t with
    entries := t.entries.set i { (t.entries.getD i default) with state := EntryState.deleted }
    count := t.count - 1 }

/-- `table_rehash`.  `callocOk` is the allocation oracle for the fresh entry
array; on any failure the function returns `-1` with the table untouched,
mirroring the early returns of the C code, which precede every mutation. -/
def table_rehash (t : Table) (alloc : Nat) (callocOk : Bool) : Int × Table :=
  match table_size alloc with
  | none => (-1, t)
  | some allocNew =>
    if callocOk then
      let old := t.entries
      let t1 : Table := { t with
        alloc := allocNew
        load := table_load allocNew
        entries := List.replicate allocNew default }
      let t2 := old.foldl (fun acc e =>
        if e.state = EntryState.set then
          let r := table_insert acc e.hash
          { r.1 with entries := r.1.entries.set r.2 e }
        else acc) t1
      (0, t2)
    else
      (-1, t)

/-- `table_set`.  `value = none` encodes the `NULL` removal case.  `callocOk`
is the allocation oracle passed on to a triggered rehash; `strdup` of the key
(`dup` flag) is assumed to succeed. -/
def table_set (t : Table) (key : String) (value : Option Nat) (callocOk : Bool) : Int × Table :=
  let hash := table_hash t.ci key
  match value with
  | some v =>
    match table_find t key hash with
    | some i =>
      (0, { t with entries := t.entries.set i { (t.entries.getD i default) with value := v } })
    | none =>
      let r1 := if t.count = t.load then table_rehash t (t.alloc + 1) callocOk else (0, t)
      if r1.1 = -1 then (-1, t)
      else
        let t1 := r1.2
        let r2 := table_insert t1 hash
        (0, { r2.1 with
              entries := r2.1.entries.set r2.2
                { key := key, value := v, hash := hash, state := EntryState.set }
              count := r2.1.count + 1 })
  | none =>
    match table_find t key hash with
    | some i => (0, table_remove t i)
    | none => (0, t)

/-- Insert a list of key/value pairs in order (allocation always succeeds). -/
def insertKeys (t : Table) (kvs : List (String × Nat)) : Table :=
  kvs.foldl (fun acc kv => (table_set acc kv.1 (some kv.2) true).2) t

/-! ### Concrete tables used in the evaluations below -/

/-- The table of the C1 scenario, freshly created: `table_create(4)` is the
call the compiler makes for its attribute table. -/
def c1t0 : Table := (table_create 4).getD default

/-- C1 scenario after `table_set(t, "a", v)` with a non-null value. -/
def c1t1 : Table := (table_set c1t0 "a" (some 1) true).2

/-- C1 scenario after the removal `table_set(t, "a", NULL)`. -/
def c1t2 : Table := (table_set c1t1 "a" none true).2

/-- Keys driving the C3 scenario: seven keys inserted into `table_create(5)`
(capacity 11), followed by the insertion of `"bg"` below. -/
def c3keys : List (String × Nat) :=
  [("jv", 1), ("x", 2), ("ac", 3), ("hu", 4), ("v", 5), ("n", 6), ("id", 7)]

def c3t : Table := insertKeys ((table_create 5).getD default) c3keys

def c3hash : Nat := table_hash false "bg"

def c3q : Nat := c3hash % (c3t.alloc - 2) + 1

/-- Naive-walk result (final slot, `len_worst`) for inserting `"bg"`. -/
def c3walk : Nat × Nat := naiveWalk c3t.entries c3t.alloc c3q (c3hash % c3t.alloc) 1 c3t.alloc

/-- The relocation scan performed by `table_insert` for `"bg"`. -/
def c3scan : Option (Nat × Nat × Nat) × Nat × Nat × List (Nat × Nat × Nat × Nat) :=
  outerScan c3t.entries c3t.alloc c3q c3walk.2 (c3hash % c3t.alloc) 1 none c3walk.2

/-! ### C6: load threshold arithmetic -/

/-- C6 counterexample: capacity 3 is in the prime table, but the load
threshold computed by `table_load` is `1`, whereas `⌊3 * 7 / 8⌋ = 2`; the
claimed equality between the threshold and `⌊capacity * 7 / 8⌋` fails. -/
theorem c6_counterexample :
    3 ∈ table_sizes ∧ table_load 3 = 1 ∧ 3 * 7 / 8 = 2 ∧ table_load 3 ≠ 3 * 7 / 8 := by
  refine ⟨?_, rfl, rfl, by decide⟩
  simp [table_sizes]

/-- C6 (amended): for every capacity the load threshold is the truncating sum
`capacity/2 + capacity/4 + capacity/8`; this undercuts `⌊capacity * 7 / 8⌋`
by at most 2 (and equals it only for particular residues mod 8). -/
theorem c6_load_bounds (a : Nat) :
    table_load a ≤ a * 7 / 8 ∧ a * 7 / 8 ≤ table_load a + 2 := by
  unfold table_load
  omega

/-! ### C8: failed rehash leaves the table unchanged -/

/-- C8: if the allocation performed during a rehash fails, the rehash reports
failure (`-1`) and the live table is returned exactly as it was; likewise a
`table_set` that triggers a failing rehash reports failure with the table
unchanged. -/
theorem c8_rehash_failure :
    (∀ (t : Table) (alloc : Nat), table_rehash t alloc false = (-1, t)) ∧
    (∀ (t : Table) (key : String) (v : Nat),
      t.count = t.load →
      table_find t key (table_hash t.ci key) = none →
      table_set t key (some v) false = (-1, t)) := by
  constructor
  · intro t alloc
    unfold table_rehash
    cases table_size alloc <;> simp
  · intro t key v hcount hfind
    have h1 : table_rehash t (t.alloc + 1) false = (-1, t) := by
      unfold table_rehash
      cases table_size (t.alloc + 1) <;> simp
    simp only [table_set, hfind, hcount, if_pos rfl, h1]
    simp

/-- A concrete table whose count has reached its load threshold. -/
def c8t : Table :=
  { alloc := 3, load := 1, count := 1,
    entries := [{ key := "k", value := 7, hash := table_hash false "k", state := EntryState.set },
                default, default],
    ci := false }

/-- Witness for `c8_rehash_failure` at a concrete table and key. -/
theorem c8_rehash_failure_witness :
    c8t.count = c8t.load ∧ table_set c8t "z" (some 5) false = (-1, c8t) := by
  refine ⟨rfl, ?_⟩
  exact c8_rehash_failure.2 c8t "z" 5 rfl (by decide)

/-! ### C1: lookup after removal (code bug) -/

/-- C1: evaluation of the failing input.  After `table_set(t, "a", 1)` and
the removal `table_set(t, "a", NULL)`, the claim (and the specification's
data model, which calls a deleted slot "occupied-but-non-matching") requires
`table_get(t, "a")` to report absent; the code instead returns the stale
value `1`, because `table_find` compares hash and key without checking the
entry state, so the deleted entry still matches. -/
theorem c1_deleted_entry_found :
    table_create 4 = some c1t0 ∧
    (table_set c1t0 "a" (some 1) true).1 = 0 ∧
    (table_set c1t1 "a" none true).1 = 0 ∧
    (c1t2.entries.getD (table_hash false "a" % 7) default).state = EntryState.deleted ∧
    table_get c1t2 "a" = some 1 := by
  refine ⟨by decide, by decide, by decide, by decide, by decide⟩

/-! ### C9: creation headroom and rehash-free fill -/

/-- Boolean strict-ascent check, used to certify the size table by kernel
computation. -/
def ascending : List Nat → Bool
  | [] => true
  | [_] => true
  | a :: b :: r => a < b && ascending (b :: r)

theorem ascending_chain : ∀ l : List Nat, ascending l = true → l.Chain' (· < ·) := by
  intro l
  induction l with
  | nil => intro; exact List.chain'_nil
  | cons a r ih =>
    cases r with
    | nil => intro; exact List.chain'_singleton a
    | cons b r' =>
      intro h
      unfold ascending at h
      rw [Bool.and_eq_true] at h
      exact List.Chain'.cons (by exact_mod_cast of_decide_eq_true h.1) (ih h.2)

theorem table_sizes_ascending : ascending table_sizes = true := by decide

theorem table_sizes_pairwise : table_sizes.Pairwise (· < ·) :=
  List.chain'_iff_pairwise.mp (ascending_chain table_sizes table_sizes_ascending)

theorem table_sizes_length : table_sizes.length = 112 := by decide

theorem sizes_getD_lt {i j : Nat} (hij : i < j) (hj : j < 112) :
    table_sizes.getD i 0 < table_sizes.getD j 0 := by
  have hj' : j < table_sizes.length := by rw [table_sizes_length]; exact hj
  have hi' : i < table_sizes.length := by rw [table_sizes_length]; omega
  rw [List.getD_eq_getElem table_sizes 0 hi', List.getD_eq_getElem table_sizes 0 hj']
  exact List.pairwise_iff_getElem.mp table_sizes_pairwise i j hi' hj' hij

/-- Specification of the binary-search loop of `table_size`: assuming the
two-sided invariant about entries strictly below `lower` and strictly above
`upper`, the returned index splits the table into entries `< size` (below it)
and entries `≥ size` (at and above it). -/
theorem sizeSearch_spec (size : Nat) :
    ∀ (fuel : Nat) (lower upper : Int),
      0 ≤ lower → upper ≤ 111 → upper + 1 - lower ≤ (fuel : Int) →
      (∀ j : Nat, (j : Int) < lower → table_sizes.getD j 0 < size) →
      (∀ j : Nat, j < 112 → upper < (j : Int) → size ≤ table_sizes.getD j 0) →
      0 ≤ sizeSearch size lower upper fuel ∧
      (∀ j : Nat, (j : Int) < sizeSearch size lower upper fuel → table_sizes.getD j 0 < size) ∧
      (∀ j : Nat, j < 112 → sizeSearch size lower upper fuel ≤ (j : Int) →
        size ≤ table_sizes.getD j 0) := by
  intro fuel
  induction fuel with
  | zero =>
    intro lower upper h0 h111 hfuel hlo hhi
    simp only [sizeSearch]
    refine ⟨h0, hlo, ?_⟩
    intro j hj hlj
    exact hhi j hj (by omega)
  | succ fuel ih =>
    intro lower upper h0 h111 hfuel hlo hhi
    unfold sizeSearch
    by_cases hle : lower ≤ upper
    · rw [if_pos hle]
      have hmid1 : lower ≤ (lower + upper) / 2 := by omega
      have hmid2 : (lower + upper) / 2 ≤ upper := by omega
      have hmid0 : 0 ≤ (lower + upper) / 2 := le_trans h0 hmid1
      have hmidc : (((lower + upper) / 2).toNat : Int) = (lower + upper) / 2 :=
        Int.toNat_of_nonneg hmid0
      by_cases hcmp : table_sizes.getD ((lower + upper) / 2).toNat 0 < size
      · rw [if_pos hcmp]
        refine ih ((lower + upper) / 2 + 1) upper (by omega) h111 (by omega) ?_ hhi
        intro j hj
        by_cases hjm : (j : Int) < (lower + upper) / 2
        · have hj112 : j < 112 := by omega
          calc table_sizes.getD j 0 ≤ table_sizes.getD ((lower + upper) / 2).toNat 0 := by
                refine le_of_lt (sizes_getD_lt ?_ ?_) <;> omega
            _ < size := hcmp
        · have : j = ((lower + upper) / 2).toNat := by omega
          rw [this]
          exact hcmp
      · rw [if_neg hcmp]
        refine ih lower ((lower + upper) / 2 - 1) h0 (by omega) (by omega) hlo ?_
        intro j hj112 hj
        by_cases hjm : (lower + upper) / 2 < (j : Int)
        · calc size ≤ table_sizes.getD ((lower + upper) / 2).toNat 0 := Nat.le_of_not_lt hcmp
            _ ≤ table_sizes.getD j 0 := by
                refine le_of_lt (sizes_getD_lt ?_ hj112) ; omega
        · have : j = ((lower + upper) / 2).toNat := by omega
          rw [this]
          exact Nat.le_of_not_lt hcmp
    · rw [if_neg hle]
      refine ⟨h0, hlo, ?_⟩
      intro j hj hlj
      exact hhi j hj (by omega)

/-- `table_size` only returns values at least as large as its argument, and
the returned value is one of the precomputed primes. -/
theorem table_size_ge {s p : Nat} (h : table_size s = some p) :
    s ≤ p ∧ p ∈ table_sizes := by
  unfold table_size at h
  have hs := sizeSearch_spec s 200 0 ((table_sizes_n : Int) - 1) (by decide) (by decide)
    (by decide) (by intro j hj; omega) (by intro j hj112 hj; exfalso; unfold table_sizes_n at hj; omega)
  rcases hs with ⟨hpos, _, hge⟩
  set l := sizeSearch s 0 ((table_sizes_n : Int) - 1) 200 with hl
  by_cases hlt : (table_sizes_n : Int) ≤ l
  · rw [if_pos hlt] at h
    exact absurd h (by simp)
  · rw [if_neg hlt] at h
    have hl112 : l.toNat < 112 := by
      unfold table_sizes_n at hlt
      omega
    have hcast : (l.toNat : Int) = l := Int.toNat_of_nonneg hpos
    have := hge l.toNat hl112 (by omega)
    constructor
    · rw [← Option.some_inj.mp h]
      exact this
    · rw [← Option.some_inj.mp h]
      have : l.toNat < table_sizes.length := by rw [table_sizes_length]; exact hl112
      rw [List.getD_eq_getElem table_sizes 0 this]
      exact List.getElem_mem this

/-- The headroom computation of `table_create`: the load threshold of an
array of at least `load + load / 7 + 3` slots is at least `load` (this is
the comment `/* t->load >= load */` in the source). -/
theorem table_load_headroom (load : Nat) : load ≤ table_load (load + load / 7 + 3) := by
  unfold table_load
  omega

theorem table_load_mono {a b : Nat} (h : a ≤ b) : table_load a ≤ table_load b := by
  unfold table_load
  have h2 : a / 2 ≤ b / 2 := Nat.div_le_div_right h
  have h4 : a / 4 ≤ b / 4 := Nat.div_le_div_right h
  have h8 : a / 8 ≤ b / 8 := Nat.div_le_div_right h
  omega

/-- First half of C9: a successfully created table has a load threshold of at
least the requested expected load. -/
theorem table_create_load_ge {load : Nat} {t : Table}
    (hmax : load < 272513087380099) (h : table_create load = some t) :
    load ≤ t.load ∧ t.count = 0 ∧ t.entries = List.replicate t.alloc default ∧
      t.load = table_load t.alloc ∧ t.ci = false := by
  have hbranch : table_sizes.getD (table_sizes_n - 1) 0 = 272513087380099 := by decide
  simp only [table_create] at h
  rw [hbranch, if_pos hmax] at h
  rcases hp : table_size (load + (load / 7 + 3)) with _ | p
  · rw [hp] at h
    exact absurd h (by simp)
  · rw [hp] at h
    have hge := (table_size_ge hp).1
    have ht : t = { alloc := p, load := table_load p, count := 0,
                    entries := List.replicate p default, ci := false } :=
      (Option.some_inj.mp h).symm
    subst ht
    refine ⟨?_, rfl, rfl, rfl, rfl⟩
    exact le_trans (table_load_headroom load) (table_load_mono hge)

/-- All occupied (non-`unused`) entries of the table carry keys from `keys`. -/
def StoredOk (t : Table) (keys : List String) : Prop :=
  ∀ e ∈ t.entries, e.state ≠ EntryState.unused → e.key ∈ keys

theorem findLoop_some {entries : List Entry} {alloc : Nat} {ci : Bool} {key : String}
    {hash r q : Nat} :
    ∀ (fuel h i : Nat), findLoop entries alloc ci key hash r q h fuel = some i →
      (entries.getD i default).state ≠ EntryState.unused ∧
      keyEq ci (entries.getD i default).key key = true := by
  intro fuel
  induction fuel with
  | zero => intro h i hf; exact absurd hf (by simp [findLoop])
  | succ fuel ih =>
    intro h i hf
    unfold findLoop at hf
    by_cases h1 : (entries.getD h default).state = EntryState.unused
    · rw [if_pos h1] at hf
      exact absurd hf (by simp)
    · rw [if_neg h1] at hf
      by_cases h2 : (entries.getD h default).hash = hash ∧ keyEq ci (entries.getD h default).key key
      · rw [if_pos h2] at hf
        have : h = i := Option.some_inj.mp hf
        subst this
        exact ⟨h1, h2.2⟩
      · rw [if_neg h2] at hf
        by_cases h3 : (h + q) % alloc = r
        · rw [if_pos h3] at hf
          exact absurd hf (by simp)
        · rw [if_neg h3] at hf
          exact ih ((h + q) % alloc) i hf

/-- A key that is not stored in the table is not found. -/
theorem table_find_fresh {t : Table} {keys : List String} {key : String} {hash : Nat}
    (hci : t.ci = false) (hok : StoredOk t keys) (hfresh : key ∉ keys) :
    table_find t key hash = none := by
  rcases hf : table_find t key hash with _ | i
  · rfl
  · exfalso
    unfold table_find at hf
    have := findLoop_some t.alloc (hash % t.alloc) i hf
    rcases this with ⟨hstate, hkey⟩
    rw [hci] at hkey
    have hkeyeq : (t.entries.getD i default).key = key := by
      unfold keyEq at hkey
      simpa using hkey
    by_cases hi : i < t.entries.length
    · have hmem : t.entries.getD i default ∈ t.entries := by
        rw [List.getD_eq_getElem t.entries default hi]
        exact List.getElem_mem hi
      have := hok _ hmem hstate
      rw [hkeyeq] at this
      exact hfresh this
    · have : t.entries.getD i default = default := by
        rw [List.getD_eq_default]
        omega
      rw [this] at hstate
      exact hstate rfl

/-- `table_insert` never changes the scalar fields and keeps `StoredOk` (a
relocation only copies an entry that is already present). -/
theorem table_insert_preserves {t : Table} {keys : List String} (hash : Nat)
    (hok : StoredOk t keys) :
    StoredOk (table_insert t hash).1 keys ∧
    (table_insert t hash).1.alloc = t.alloc ∧ (table_insert t hash).1.load = t.load ∧
    (table_insert t hash).1.count = t.count ∧ (table_insert t hash).1.ci = t.ci := by
  unfold table_insert
  by_cases hw : (naiveWalk t.entries t.alloc (hash % (t.alloc - 2) + 1) (hash % t.alloc) 1
      t.alloc).2 ≤ 2
  · rw [if_pos hw]
    exact ⟨hok, rfl, rfl, rfl, rfl⟩
  · rw [if_neg hw]
    rcases hscan : outerScan t.entries t.alloc (hash % (t.alloc - 2) + 1)
        (naiveWalk t.entries t.alloc (hash % (t.alloc - 2) + 1) (hash % t.alloc) 1 t.alloc).2
        (hash % t.alloc) 1 none
        (naiveWalk t.entries t.alloc (hash % (t.alloc - 2) + 1) (hash % t.alloc) 1 t.alloc).2
      with ⟨cand, hf, lf, tr⟩
    cases cand with
    | none => exact ⟨hok, rfl, rfl, rfl, rfl⟩
    | some c =>
      rcases c with ⟨old, new, lm⟩
      refine ⟨?_, rfl, rfl, rfl, rfl⟩
      intro e he hstate
      rcases List.mem_or_eq_of_mem_set he with h1 | h1
      · exact hok e h1 hstate
      · subst h1
        by_cases hi : old < t.entries.length
        · have hmem : t.entries.getD old default ∈ t.entries := by
            rw [List.getD_eq_getElem t.entries default hi]
            exact List.getElem_mem hi
          exact hok _ hmem hstate
        · exfalso
          have : t.entries.getD old default = default := by
            rw [List.getD_eq_default]
            omega
          rw [this] at hstate
          exact hstate rfl

/-- Inserting a fresh key into a table strictly below its load threshold:
no rehash is triggered, the count grows by one, the thresholds are unchanged
and the new key joins the stored keys. -/
theorem table_set_fresh {t : Table} {keys : List String} (key : String) (v : Nat)
    (hci : t.ci = false) (hok : StoredOk t keys) (hfresh : key ∉ keys)
    (hload : t.count < t.load) :
    (table_set t key (some v) true).1 = 0 ∧
    (table_set t key (some v) true).2.count = t.count + 1 ∧
    (table_set t key (some v) true).2.load = t.load ∧
    (table_set t key (some v) true).2.alloc = t.alloc ∧
    (table_set t key (some v) true).2.ci = false ∧
    StoredOk (table_set t key (some v) true).2 (key :: keys) := by
  have hfind : table_find t key (table_hash t.ci key) = none := table_find_fresh hci hok hfresh
  have hcl : ¬ (t.count = t.load) := by omega
  have hins := @table_insert_preserves t keys (table_hash t.ci key) hok
  simp only [table_set, hfind, hcl, if_false, if_neg hcl, ite_false]
  norm_num
  rcases hins with ⟨hok', ha, hl, hc, hcif⟩
  refine ⟨by omega, by rw [hl], by rw [ha], by rw [hcif, hci], ?_⟩
  intro e he hstate
  rcases List.mem_or_eq_of_mem_set he with h1 | h1
  · exact List.mem_cons_of_mem _ (hok' e h1 hstate)
  · subst h1
    exact List.mem_cons_self _ _

/-- Filling a table with fresh, pairwise distinct keys while staying within
its load threshold never touches the threshold fields and increments the
count once per key. -/
theorem insertKeys_props :
    ∀ (kvs : List (String × Nat)) (t : Table) (keys : List String),
      t.ci = false → StoredOk t keys → (∀ p ∈ kvs, p.1 ∉ keys) →
      (kvs.map Prod.fst).Nodup → t.count + kvs.length ≤ t.load →
      (insertKeys t kvs).count = t.count + kvs.length ∧
      (insertKeys t kvs).load = t.load ∧
      (insertKeys t kvs).alloc = t.alloc ∧
      (insertKeys t kvs).ci = false := by
  intro kvs
  induction kvs with
  | nil =>
    intro t keys hci _ _ _ _
    exact ⟨by simp [insertKeys], by simp [insertKeys], by simp [insertKeys],
           by simp [insertKeys]; exact hci⟩
  | cons kv rest ih =>
    intro t keys hci hok hfresh hnd hload
    have hstep := @table_set_fresh t keys kv.1 kv.2 hci hok
      (hfresh kv (by simp)) (by simp at hload; omega)
    rcases hstep with ⟨_, hcount, hload', halloc, hci', hok'⟩
    have hnd' : (rest.map Prod.fst).Nodup := (List.nodup_cons.mp (by simpa using hnd)).2
    have hnotin : kv.1 ∉ rest.map Prod.fst := (List.nodup_cons.mp (by simpa using hnd)).1
    have hfresh' : ∀ p ∈ rest, p.1 ∉ (kv.1 :: keys) := by
      intro p hp
      simp only [List.mem_cons]
      push_neg
      constructor
      · intro heq
        exact hnotin (heq ▸ List.mem_map_of_mem Prod.fst hp)
      · exact hfresh p (List.mem_cons_of_mem _ hp)
    have hload'' : (table_set t kv.1 (some kv.2) true).2.count + rest.length ≤
        (table_set t kv.1 (some kv.2) true).2.load := by
      rw [hcount, hload']
      simp at hload
      omega
    have := ih (table_set t kv.1 (some kv.2) true).2 (kv.1 :: keys) hci' hok' hfresh' hnd' hload''
    rcases this with ⟨h1, h2, h3, h4⟩
    have hik : insertKeys t (kv :: rest) = insertKeys (table_set t kv.1 (some kv.2) true).2 rest := by
      simp [insertKeys]
    rw [hik, h1, h2, h3, hcount, hload', halloc]
    simp only [List.length_cons]
    refine ⟨by omega, by trivial, by trivial, h4⟩

/-- C9: a table created with `table_create load` (for `load` below the
largest precomputed prime) has a load threshold of at least `load`, and
inserting at most `load` pairwise distinct keys never reaches the rehash
trigger `count == load` (so no rehash happens, and the capacity never
changes). -/
theorem c9_create_fill_no_rehash (load : Nat) (t : Table) (kvs : List (String × Nat))
    (hmax : load < 272513087380099) (hc : table_create load = some t)
    (hnd : (kvs.map Prod.fst).Nodup) (hlen : kvs.length ≤ load) :
    load ≤ t.load ∧
    (∀ j, j < kvs.length →
      (insertKeys t (kvs.take j)).count < (insertKeys t (kvs.take j)).load) ∧
    (insertKeys t kvs).alloc = t.alloc := by
  rcases table_create_load_ge hmax hc with ⟨hge, hcount, hentries, _, hci⟩
  have hok : StoredOk t [] := by
    intro e he hstate
    rw [hentries] at he
    have : e = default := List.eq_of_mem_replicate he
    rw [this] at hstate
    exact absurd rfl hstate
  have props : ∀ (pre : List (String × Nat)), pre.Sublist kvs →
      (insertKeys t pre).count = pre.length ∧ (insertKeys t pre).load = t.load ∧
      (insertKeys t pre).alloc = t.alloc := by
    intro pre hsub
    have hndp : (pre.map Prod.fst).Nodup := (hsub.map Prod.fst).nodup hnd
    have hlenp : t.count + pre.length ≤ t.load := by
      rw [hcount]
      have := hsub.length_le
      omega
    have := insertKeys_props pre t [] hci hok (by intro p _; simp) hndp hlenp
    rw [hcount] at this
    exact ⟨by rw [this.1]; omega, this.2.1, this.2.2.1⟩
  refine ⟨hge, ?_, (props kvs (List.Sublist.refl kvs)).2.2⟩
  intro j hj
  rcases props (kvs.take j) (List.take_sublist j kvs) with ⟨hc', hl', _⟩
  rw [hc', hl']
  have : (kvs.take j).length = j := by
    rw [List.length_take]
    omega
  omega

/-- Concrete table for the C9 witness: `table_create 4` (capacity 7). -/
def c9wt : Table := (table_create 4).getD default

def c9wkvs : List (String × Nat) := [("aa", 1), ("bb", 2), ("cc", 3)]

/-- Witness for `c9_create_fill_no_rehash` at `load = 4` and three keys. -/
theorem c9_create_fill_no_rehash_witness :
    (4 < 272513087380099 ∧ table_create 4 = some c9wt ∧
      (c9wkvs.map Prod.fst).Nodup ∧ c9wkvs.length ≤ 4) ∧
    (4 ≤ c9wt.load ∧
      (∀ j, j < c9wkvs.length →
        (insertKeys c9wt (c9wkvs.take j)).count < (insertKeys c9wt (c9wkvs.take j)).load) ∧
      (insertKeys c9wt c9wkvs).alloc = c9wt.alloc) :=
  ⟨⟨by decide, by decide, by decide, by decide⟩,
    c9_create_fill_no_rehash 4 c9wt c9wkvs (by decide) (by decide) (by decide) (by decide)⟩

/-! ### C3: admission bound and survivor of the relocation scan -/

/-- Any candidate admitted by the inner scan obeys `len + len_move ≤
len_worst - 1`, provided the scan starts within that bound (which the outer
loop guarantees).  The bound is not strict: the free-slot test precedes the
zero-sum test, so a candidate sitting exactly on the bound is admitted. -/
theorem innerScan_bound {entries : List Entry} {alloc qm len lw : Nat} :
    ∀ (fuel hm lm : Nat) {hn lmr : Nat},
      len + lm ≤ lw - 1 →
      innerScan entries alloc qm len lw hm lm fuel = some (hn, lmr) →
      len + lmr ≤ lw - 1 := by
  intro fuel
  induction fuel with
  | zero => intro hm lm hn lmr hb hf; exact absurd hf (by simp [innerScan])
  | succ fuel ih =>
    intro hm lm hn lmr hb hf
    unfold innerScan at hf
    by_cases h1 : (entries.getD hm default).state ≠ EntryState.set
    · rw [if_pos h1] at hf
      have : hm = hn ∧ lm = lmr := by
        have := Option.some_inj.mp hf
        exact ⟨congrArg Prod.fst this, congrArg Prod.snd this⟩
      rw [← this.2]
      exact hb
    · rw [if_neg h1] at hf
      by_cases h2 : lw - 1 ≤ len + lm
      · rw [if_pos h2] at hf
        exact absurd hf (by simp)
      · rw [if_neg h2] at hf
        exact ih ((hm + qm) % alloc) (lm + 1) (by omega) hf

/-- Specification of the outer relocation scan: every admitted candidate
`(len, len_move, old, new)` satisfies `len + len_move ≤ len_worst - 1`, and
the candidate the scan hands back is the **last** admitted one (a newly
admitted candidate overwrites the previous one unconditionally). -/
theorem outerScan_spec {entries : List Entry} {alloc q lw : Nat} :
    ∀ (fuel h len : Nat) (cand : Option (Nat × Nat × Nat)),
      len + 1 ≤ lw - 1 →
      (∀ p ∈ (outerScan entries alloc q lw h len cand fuel).2.2.2,
        len ≤ p.1 ∧ p.1 + p.2.1 ≤ lw - 1) ∧
      (outerScan entries alloc q lw h len cand fuel).1 =
        (match (outerScan entries alloc q lw h len cand fuel).2.2.2.getLast? with
         | some (_, lm, old, new) => some (old, new, lm)
         | none => cand) := by
  intro fuel
  induction fuel with
  | zero =>
    intro h len cand hlen
    simp [outerScan]
  | succ fuel ih =>
    intro h len cand hlen
    unfold outerScan
    rcases hres : innerScan entries alloc ((entries.getD h default).hash % (alloc - 2) + 1)
        len lw ((h + ((entries.getD h default).hash % (alloc - 2) + 1)) % alloc) 1 lw
      with _ | ⟨hn, lm⟩
    all_goals simp only [hres]
    · -- no candidate at this position
      by_cases hguard : len + 1 < lw - 1 ∧ (match cand with
          | none => true
          | some c => decide (len + 1 < c.2.2)) = true
      · rw [if_pos hguard]
        have := ih ((h + q) % alloc) (len + 1) cand (by omega)
        refine ⟨?_, ?_⟩
        · intro p hp
          simp only [List.nil_append] at hp
          have := this.1 p hp
          exact ⟨by omega, this.2⟩
        · simp only [List.nil_append]
          exact this.2
      · rw [if_neg hguard]
        simp
    · -- candidate (h, hn, lm) admitted here
      have hbound : len + lm ≤ lw - 1 := innerScan_bound lw _ 1 (by omega) hres
      by_cases hguard : len + 1 < lw - 1 ∧ (match (some (h, hn, lm) :
            Option (Nat × Nat × Nat)) with
          | none => true
          | some c => decide (len + 1 < c.2.2)) = true
      · rw [if_pos hguard]
        have := ih ((h + q) % alloc) (len + 1) (some (h, hn, lm)) (by omega)
        rcases this with ⟨htr, hcand⟩
        refine ⟨?_, ?_⟩
        · intro p hp
          rcases List.mem_append.mp hp with hp1 | hp1
          · rcases List.mem_singleton.mp hp1 with rfl
            exact ⟨le_refl _, hbound⟩
          · have := htr p hp1
            exact ⟨by omega, this.2⟩
        · rcases htl : (outerScan entries alloc q lw ((h + q) % alloc) (len + 1)
              (some (h, hn, lm)) fuel).2.2.2 with _ | ⟨x, xs⟩
          · rw [htl] at hcand
            simp only [htl, List.append_nil]
            simp only [List.getLast?_nil] at hcand
            simp [hcand]
          · rw [htl] at hcand
            have hne : x :: xs ≠ [] := by simp
            rw [List.getLast?_append_of_ne_nil _ hne]
            exact hcand
      · rw [if_neg hguard]
        refine ⟨?_, ?_⟩
        · intro p hp
          rcases List.mem_singleton.mp (by simpa using hp) with rfl
          exact ⟨le_refl _, hbound⟩
        · simp

/-- C3 counterexample.  Insert the keys of `c3keys` into `table_create(5)`
(capacity 11) and then insert `"bg"`: the naive chain length is 7, the scan
admits the candidates `(len, len_move) = (1, 3)` and `(2, 4)` (in that
order), and the relocation performed uses the *last* admitted candidate,
whose `len_move` is 4, although a candidate with the strictly smaller
`len_move` 3 was admitted earlier; moreover the surviving candidate was
admitted at `len + len_move = 6 = len_worst - 1`, not strictly below it. -/
theorem c3_counterexample :
    c3walk.2 = 7 ∧
    c3scan.2.2.2 = [(1, 3, 7, 8), (2, 4, 9, 10)] ∧
    c3scan.1 = some (9, 10, 4) ∧
    (table_insert c3t c3hash).2 = 9 ∧
    ¬ (2 + 4 < 7 - 1) ∧ 3 < 4 := by
  exact ⟨by decide, by decide, by decide, by decide, by decide, by decide⟩

/-- C3 (amended): in the relocation scan (entered when `len_worst ≥ 3`),
every admitted candidate satisfies `len + len_move ≤ len_worst − 1` (the
bound is non-strict), and the candidate finally used for the relocation is
the last admitted one — later candidates overwrite earlier ones, so it need
not have the smallest `len_move`. -/
theorem c3_scan_last_candidate_wins (entries : List Entry) (alloc q lw h0 fuel : Nat)
    (hlw : 3 ≤ lw) :
    (∀ p ∈ (outerScan entries alloc q lw h0 1 none fuel).2.2.2,
      p.1 + p.2.1 ≤ lw - 1) ∧
    (outerScan entries alloc q lw h0 1 none fuel).1 =
      (match (outerScan entries alloc q lw h0 1 none fuel).2.2.2.getLast? with
       | some (_, lm, old, new) => some (old, new, lm)
       | none => none) := by
  have := @outerScan_spec entries alloc q lw fuel h0 1 none (by omega)
  exact ⟨fun p hp => (this.1 p hp).2, this.2⟩

/-- Witness for `c3_scan_last_candidate_wins` at the concrete `"bg"`
insertion of the counterexample scenario. -/
theorem c3_scan_last_candidate_wins_witness :
    3 ≤ c3walk.2 ∧
    ((∀ p ∈ c3scan.2.2.2, p.1 + p.2.1 ≤ c3walk.2 - 1) ∧
     c3scan.1 = (match c3scan.2.2.2.getLast? with
                 | some (_, lm, old, new) => some (old, new, lm)
                 | none => none)) :=
  ⟨by decide, c3_scan_last_candidate_wins c3t.entries c3t.alloc c3q c3walk.2
    (c3hash % c3t.alloc) c3walk.2 (by decide)⟩

/-! ## Template compiler and interpreter (src/template.c)

Expressions are compiled by the host environment (`luaL_ref` returns an
integer registry reference), so compiled nodes carry plain integer
references; the interpreter receives evaluation oracles that map a reference
and the current binding context to the values the expression produces. -/

def TEMPLATE_FESCXML : Nat := 1
def TEMPLATE_FESCURL : Nat := 2
def TEMPLATE_FESCJS : Nat := 3
def TEMPLATE_FESC : Nat := 255
def TEMPLATE_FSUPNIL : Nat := 256

/-! ### Substitution flags (template_parse_flags) -/

/-- The flag-accumulation loop of `template_parse_flags`. -/
def parseFlagsLoop : List Char → Nat → Except String Nat
  | [], value => .ok value
  | f :: rest, value =>
    match f with
    | 'x' => if value &&& TEMPLATE_FESC ≠ 0 then .error "bad flags: multiple escapes"
             else parseFlagsLoop rest (value ||| TEMPLATE_FESCXML)
    | 'u' => if value &&& TEMPLATE_FESC ≠ 0 then .error "bad flags: multiple escapes"
             else parseFlagsLoop rest (value ||| TEMPLATE_FESCURL)
    | 'j' => if value &&& TEMPLATE_FESC ≠ 0 then .error "bad flags: multiple escapes"
             else parseFlagsLoop rest (value ||| TEMPLATE_FESCJS)
    | 'n' => parseFlagsLoop rest (value ||| TEMPLATE_FSUPNIL)
    | _ => .error "bad flags: unknown character"

/-- `template_parse_flags`. -/
def template_parse_flags (flags : String) : Except String Nat :=
  parseFlagsLoop flags.data 0

/-- The flags a substitution node receives when no `[flags]` bracket is
present (`template_parse_sub`, else-branch of the bracket test). -/
def template_sub_default_flags : Nat := TEMPLATE_FESCXML

/-! ### Output encoders (template_render_template, NT_SUB switch) -/

def template_hex_digits : List Char :=
  ['0', '1', '2', '3', '4', '5', '6', '7', '8', '9', 'A', 'B', 'C', 'D', 'E', 'F']

/-- XML-style encoding of one byte (the `TEMPLATE_FESCXML` switch arm). -/
def escape_xml_char (c : Char) : String :=
  if c = '&' then "&amp;"
  else if c = '<' then "&lt;"
  else if c = '>' then "&gt;"
  else String.singleton c

def escape_xml (s : String) : String :=
  String.join (s.data.map escape_xml_char)

/-- URL-style encoding of one byte (the `TEMPLATE_FESCURL` switch arm);
`isalnum` restricted to ASCII. -/
def escape_url_char (c : Char) : String :=
  if (('0' ≤ c ∧ c ≤ '9') ∨ ('a' ≤ c ∧ c ≤ 'z') ∨ ('A' ≤ c ∧ c ≤ 'Z'))
      ∨ c = '-' ∨ c = '.' ∨ c = '_' ∨ c = '~' then
    String.singleton c
  else
    "%" ++ String.singleton (template_hex_digits.getD (c.toNat / 16 % 16) '0')
        ++ String.singleton (template_hex_digits.getD (c.toNat % 16) '0')

def escape_url (s : String) : String :=
  String.join (s.data.map escape_url_char)

/-- Script-string encoding of one byte (the `TEMPLATE_FESCJS` switch arm). -/
def escape_js_char (c : Char) : String :=
  if c = Char.ofNat 8 then "\\b"
  else if c = Char.ofNat 9 then "\\t"
  else if c = Char.ofNat 10 then "\\n"
  else if c = Char.ofNat 11 then "\\v"
  else if c = Char.ofNat 12 then "\\f"
  else if c = Char.ofNat 13 then "\\r"
  else if c = Char.ofNat 34 then "\\\""
  else if c = Char.ofNat 39 then "\\" ++ String.singleton (Char.ofNat 39)
  else if c = Char.ofNat 92 then "\\\\"
  else String.singleton c

def escape_js (s : String) : String :=
  String.join (s.data.map escape_js_char)

/-- The encoder switch of the `NT_SUB` case: `node->sub_flags & TEMPLATE_FESC`
selects the encoder; any other value (in particular 0, from a flags bracket
that selects no escape) falls through to the plain `fputs`. -/
def sub_write (flags : Nat) (s : String) : String :=
  match flags &&& TEMPLATE_FESC with
  | 1 => escape_xml s
  | 2 => escape_url s
  | 3 => escape_js s
  | _ => s

/-! ### Name lists (template_parse_names) -/

/-- The delimiter set `"\t ,"` of the `strtok_r` call. -/
def isNameDelim (c : Char) : Bool :=
  c = Char.ofNat 9 || c = ' ' || c = ','

/-- `strtok_r`-style tokenisation: skip delimiters, cut maximal runs of
non-delimiters.  `cur` is the (reversed) run currently being read. -/
def tokenizeLoop : List Char → List Char → List String
  | [], cur => if cur.isEmpty then [] else [String.mk cur.reverse]
  | c :: rest, cur =>
    if isNameDelim c then
      if cur.isEmpty then tokenizeLoop rest []
      else String.mk cur.reverse :: tokenizeLoop rest []
    else tokenizeLoop rest (c :: cur)

def tokenizeNames (l : List Char) : List String := tokenizeLoop l []

/-- `template_parse_names`: tokenize, fail on an empty list. -/
def template_parse_names (names : String) : Except String (List String) :=
  let toks := tokenizeNames names.data
  if toks.isEmpty then .error "empty names" else .ok toks

/-! ### Compiled nodes (struct node_s) and parse blocks (struct block_s) -/

/-- A compiled node.  Jump targets are `off_t` (signed), with `-1` as the
unresolved sentinel, hence `Int`. -/
inductive Node : Type where
  | none
  | jump (next : Int)
  | if_ (ref : Nat) (next : Int)
  | forInit (ref : Nat)
  | forNext (names : List String) (next : Int)
  | set (names : List String) (ref : Nat)
  | incl (ref : Nat)
  | sub (ref : Nat) (flags : Nat)
  | raw (s : String)
deriving DecidableEq, Repr, Inhabited

/-- A parse-time block-stack entry. -/
inductive Block : Type where
  | bIf (start : Nat) (last : Int) (cnt : Nat)
  | bFor (start : Nat)
deriving DecidableEq, Repr

/-- Parser state: the node list (`p->nodes`) and the block stack
(`p->blocks`, head = top). -/
structure PState : Type where
  nodes : List Node
  blocks : List Block
deriving DecidableEq, Repr

/-- Write the `if_next` field at index `i` (the C code writes through the
node union; the fallback branch is unreachable under the parser invariant
that `i` holds an `NT_IF` node). -/
def setIfNext (ns : List Node) (i : Nat) (tgt : Int) : List Node :=
  match ns.getD i Node.none with
  | Node.if_ r _ => ns.set i (Node.if_ r tgt)
  | _ => ns

/-- Write the `jump_next` field at index `i` (same remark as `setIfNext`). -/
def setJumpNext (ns : List Node) (i : Nat) (tgt : Int) : List Node :=
  match ns.getD i Node.none with
  | Node.jump _ => ns.set i (Node.jump tgt)
  | _ => ns

/-- Write the `for_next_next` field at index `i` (same remark). -/
def setForNextNext (ns : List Node) (i : Nat) (tgt : Int) : List Node :=
  match ns.getD i Node.none with
  | Node.forNext names _ => ns.set i (Node.forNext names tgt)
  | _ => ns

/-- Read the `if_next` field. -/
def ifNextOf : Node → Int
  | Node.if_ _ nx => nx
  | _ => 0

/-- The backpatch walk of the `if` close handler: starting from the first
condition node, follow `if_next` `cnt` times; after each hop, patch the
`Jump` node immediately before the reached index to `tgt`. -/
def walkPatch (ns : List Node) : Nat → Nat → Int → List Node
  | _, 0, _ => ns
  | idx, c + 1, tgt =>
    let idx2 := (ifNextOf (ns.getD idx Node.none)).toNat
    walkPatch (setJumpNext ns (idx2 - 1) tgt) idx2 c tgt

/-! ### Parse events

One event per parser action of the lexing loop: an element open/close tag
dispatches to the corresponding `template_parse_*` handler (a self-closing
element produces its open event followed by its close event), a substitution
produces `eSub`, a raw run produces `eRaw`.  Attribute expressions arrive
already compiled (the integer reference); a missing required attribute or a
failed expression compilation aborts the whole parse in C and therefore
yields no compiled template, so those aborts need no event. -/
inductive PEvent : Type where
  | eOpenIf (ref : Nat)
  | eElseif (ref : Nat)
  | eElse
  | eCloseIf
  | eOpenFor (ref : Nat) (names : String)
  | eCloseFor
  | eSet (names : String) (ref : Nat)
  | eInclude (ref : Nat)
  | eSub (ref : Nat) (flags : Nat)
  | eRaw (s : String)
deriving DecidableEq, Repr

/-- `template_parse_if`, open half. -/
def template_parse_if_open (ref : Nat) (s : PState) : PState :=
  let n := s.nodes.length
  { nodes := s.nodes ++ [Node.if_ ref (-1)],
    blocks := Block.bIf n n 0 :: s.blocks }

/-- `template_parse_if`, close half. -/
def template_parse_if_close (s : PState) : Except String PState :=
  match s.blocks with
  | Block.bIf start last cnt :: rest =>
    let len := s.nodes.length
    let ns1 := if last ≠ -1 then setIfNext s.nodes last.toNat (len : Int) else s.nodes
    .ok { nodes := walkPatch ns1 start cnt (len : Int), blocks := rest }
  | _ => .error "no if to close"

/-- `template_parse_elseif`. -/
def template_parse_elseif (ref : Nat) (s : PState) : Except String PState :=
  match s.blocks with
  | Block.bIf start last cnt :: rest =>
    if last = -1 then .error "no if to continue"
    else
      let n := s.nodes.length
      let ns1 := s.nodes ++ [Node.jump (-1)]
      let ns2 := setIfNext ns1 last.toNat ((n + 1 : Nat) : Int)
      .ok { nodes := ns2 ++ [Node.if_ ref (-1)],
            blocks := Block.bIf start ((n + 1 : Nat) : Int) (cnt + 1) :: rest }
  | _ => .error "no if to continue"

/-- `template_parse_else`. -/
def template_parse_else (s : PState) : Except String PState :=
  match s.blocks with
  | Block.bIf start last cnt :: rest =>
    if last = -1 then .error "no if to continue"
    else
      let n := s.nodes.length
      let ns1 := s.nodes ++ [Node.jump (-1)]
      let ns2 := setIfNext ns1 last.toNat ((n + 1 : Nat) : Int)
      .ok { nodes := ns2, blocks := Block.bIf start (-1) (cnt + 1) :: rest }
  | _ => .error "no if to continue"

/-- `template_parse_for`, open half. -/
def template_parse_for_open (ref : Nat) (names : String) (s : PState) : Except String PState :=
  let ns1 := s.nodes ++ [Node.forInit ref]
  let start := ns1.length
  match template_parse_names names with
  | .error e => .error e
  | .ok l =>
    .ok { nodes := ns1 ++ [Node.forNext l (-1)], blocks := Block.bFor start :: s.blocks }

/-- `template_parse_for`, close half. -/
def template_parse_for_close (s : PState) : Except String PState :=
  match s.blocks with
  | Block.bFor start :: rest =>
    let n := s.nodes.length
    let ns1 := s.nodes ++ [Node.jump (start : Int)]
    .ok { nodes := setForNextNext ns1 start ((n + 1 : Nat) : Int), blocks := rest }
  | _ => .error "no for to close"

/-- `template_parse_set`. -/
def template_parse_set (names : String) (ref : Nat) (s : PState) : Except String PState :=
  match template_parse_names names with
  | .error e => .error e
  | .ok l => .ok { s with nodes := s.nodes ++ [Node.set l ref] }

/-- `template_parse_include`. -/
def template_parse_include (ref : Nat) (s : PState) : PState :=
  { s with nodes := s.nodes ++ [Node.incl ref] }

/-- `template_parse_sub` (node emission; the lexing of flags and braces is
upstream of the event). -/
def template_parse_sub (ref : Nat) (flags : Nat) (s : PState) : PState :=
  { s with nodes := s.nodes ++ [Node.sub ref flags] }

/-- `template_parse_raw`. -/
def template_parse_raw (str : String) (s : PState) : PState :=
  { s with nodes := s.nodes ++ [Node.raw str] }

def processEvent (s : PState) (e : PEvent) : Except String PState :=
  match e with
  | PEvent.eOpenIf ref => .ok (template_parse_if_open ref s)
  | PEvent.eElseif ref => template_parse_elseif ref s
  | PEvent.eElse => template_parse_else s
  | PEvent.eCloseIf => template_parse_if_close s
  | PEvent.eOpenFor ref names => template_parse_for_open ref names s
  | PEvent.eCloseFor => template_parse_for_close s
  | PEvent.eSet names ref => template_parse_set names ref s
  | PEvent.eInclude ref => .ok (template_parse_include ref s)
  | PEvent.eSub ref flags => .ok (template_parse_sub ref flags s)
  | PEvent.eRaw str => .ok (template_parse_raw str s)

def processEvents : List PEvent → PState → Except String PState
  | [], s => .ok s
  | e :: evs, s =>
    match processEvent s e with
    | .error m => .error m
    | .ok s' => processEvents evs s'

/-- `template_parse`, main loop and final checks: process all events, then
fail if any block is still open (`p->blocks->count > 0`). -/
def compileEvents (evs : List PEvent) : Except String (List Node) :=
  match processEvents evs { nodes := [], blocks := [] } with
  | .error m => .error m
  | .ok s => if s.blocks.length ≠ 0 then .error "open elements at end of template" else .ok s.nodes

/-! ### C4: encoder selection -/

/-- C4 counterexample: a substitution with the flags bracket `[n]` (suppress
nil, no escaping flag) gets `sub_flags = 256`; `256 & 0xff = 0` matches no
encoder case, so the value is written verbatim by the default `fputs` — `<`
stays `<` instead of becoming `&lt;` as the claim requires. -/
theorem c4_counterexample :
    template_parse_flags "n" = Except.ok 256 ∧
    sub_write 256 "<" = "<" ∧
    escape_xml "<" = "&lt;" ∧
    sub_write 256 "<" ≠ escape_xml "<" := by
  exact ⟨rfl, rfl, rfl, by decide⟩

theorem parseFlagsLoop_all_n :
    ∀ (l : List Char) (acc : Nat), (∀ c ∈ l, c = 'n') → (acc = 0 ∨ acc = 256) →
      parseFlagsLoop l acc = Except.ok 0 ∨ parseFlagsLoop l acc = Except.ok 256 := by
  intro l
  induction l with
  | nil =>
    intro acc _ hacc
    rcases hacc with rfl | rfl
    · exact Or.inl rfl
    · exact Or.inr rfl
  | cons c rest ih =>
    intro acc hall hacc
    have hc : c = 'n' := hall c (by simp)
    subst hc
    have hrest : ∀ c ∈ rest, c = 'n' := fun c hc => hall c (by simp [hc])
    have hor : acc ||| TEMPLATE_FSUPNIL = 256 := by
      rcases hacc with rfl | rfl <;> decide
    show parseFlagsLoop rest (acc ||| TEMPLATE_FSUPNIL) = Except.ok 0 ∨
      parseFlagsLoop rest (acc ||| TEMPLATE_FSUPNIL) = Except.ok 256
    rw [hor]
    exact ih 256 hrest (Or.inr rfl)

/-- C4 (amended): a substitution written without a flags bracket defaults to
the XML-style encoder, which maps `&`, `<`, `>` to their entities and passes
every other byte verbatim; but a substitution whose flags bracket selects
none of `x`/`u`/`j` (for example `$[n]`) is written verbatim through the
default branch — not through the XML encoder. -/
theorem c4_default_xml_bracket_verbatim :
    (∀ s : String, sub_write template_sub_default_flags s = escape_xml s) ∧
    (∀ (fstr : String) (v : Nat) (s : String),
      (∀ c ∈ fstr.data, c = 'n') → template_parse_flags fstr = Except.ok v →
      sub_write v s = s) ∧
    escape_xml_char '&' = "&amp;" ∧ escape_xml_char '<' = "&lt;" ∧
    escape_xml_char '>' = "&gt;" ∧
    (∀ c : Char, c ≠ '&' → c ≠ '<' → c ≠ '>' → escape_xml_char c = String.singleton c) := by
  refine ⟨fun s => rfl, ?_, rfl, rfl, rfl, ?_⟩
  · intro fstr v s hall hok
    have := parseFlagsLoop_all_n fstr.data 0 hall (Or.inl rfl)
    unfold template_parse_flags at hok
    rcases this with h | h <;> rw [h] at hok <;>
      rcases Option.some_inj.mp (congrArg (fun e => e.toOption) hok) with rfl <;> rfl
  · intro c h1 h2 h3
    simp [escape_xml_char, h1, h2, h3]

/-- Witness for `c4_default_xml_bracket_verbatim` at concrete strings. -/
theorem c4_default_xml_bracket_verbatim_witness :
    sub_write template_sub_default_flags "a<b" = escape_xml "a<b" ∧
    sub_write 256 "a<b" = "a<b" :=
  ⟨c4_default_xml_bracket_verbatim.1 "a<b",
   c4_default_xml_bracket_verbatim.2.1 "n" 256 "a<b" (by decide) rfl⟩

/-! ### C10: empty name lists are rejected -/

theorem exceptOkInj {ε α : Type} {a b : α} (h : (Except.ok a : Except ε α) = Except.ok b) :
    a = b := by
  injection h

theorem tokenizeNames_all_delims :
    ∀ l : List Char, (∀ c ∈ l, isNameDelim c = true) → tokenizeNames l = [] := by
  have loop : ∀ l : List Char, (∀ c ∈ l, isNameDelim c = true) → tokenizeLoop l [] = [] := by
    intro l
    induction l with
    | nil => intro _; rfl
    | cons c rest ih =>
      intro hall
      have hc : isNameDelim c = true := hall c (by simp)
      simp only [tokenizeLoop, hc, if_true, List.isEmpty_nil]
      exact ih (fun d hd => hall d (by simp [hd]))
  intro l h
  exact loop l h

/-- Every node of the parser state keeps a non-empty name list. -/
def namesOkNode : Node → Prop
  | Node.forNext names _ => names ≠ []
  | Node.set names _ => names ≠ []
  | _ => True

theorem namesOk_setIfNext {ns : List Node} {i : Nat} {t : Int}
    (h : ∀ nd ∈ ns, namesOkNode nd) : ∀ nd ∈ setIfNext ns i t, namesOkNode nd := by
  intro nd hnd
  unfold setIfNext at hnd
  split at hnd
  · rcases List.mem_or_eq_of_mem_set hnd with h1 | h1
    · exact h nd h1
    · subst h1; trivial
  · exact h nd hnd

theorem namesOk_setJumpNext {ns : List Node} {i : Nat} {t : Int}
    (h : ∀ nd ∈ ns, namesOkNode nd) : ∀ nd ∈ setJumpNext ns i t, namesOkNode nd := by
  intro nd hnd
  unfold setJumpNext at hnd
  split at hnd
  · rcases List.mem_or_eq_of_mem_set hnd with h1 | h1
    · exact h nd h1
    · subst h1; trivial
  · exact h nd hnd

theorem namesOk_setForNextNext {ns : List Node} {i : Nat} {t : Int}
    (h : ∀ nd ∈ ns, namesOkNode nd) : ∀ nd ∈ setForNextNext ns i t, namesOkNode nd := by
  intro nd hnd
  unfold setForNextNext at hnd
  split at hnd
  case _ names nx hm =>
    rcases List.mem_or_eq_of_mem_set hnd with h1 | h1
    · exact h nd h1
    · subst h1
      show names ≠ []
      have hmem : ns.getD i Node.none ∈ ns := by
        by_cases hi : i < ns.length
        · rw [List.getD_eq_getElem ns Node.none hi]; exact List.getElem_mem hi
        · rw [List.getD_eq_default] at hm
          · exact absurd hm (by simp)
          · omega
      rw [hm] at hmem
      exact h _ hmem
  case _ => exact h nd hnd

theorem namesOk_walkPatch :
    ∀ (c : Nat) (ns : List Node) (idx : Nat) (t : Int),
      (∀ nd ∈ ns, namesOkNode nd) → ∀ nd ∈ walkPatch ns idx c t, namesOkNode nd := by
  intro c
  induction c with
  | zero => intro ns idx t h nd hnd; exact h nd hnd
  | succ c ih =>
    intro ns idx t h nd hnd
    rw [walkPatch] at hnd
    exact ih _ _ t (namesOk_setJumpNext h) nd hnd

theorem template_parse_names_nonempty {s : String} {l : List String}
    (h : template_parse_names s = Except.ok l) : l ≠ [] := by
  unfold template_parse_names at h
  by_cases he : (tokenizeNames s.data).isEmpty
  · rw [if_pos he] at h
    exact absurd h (by simp)
  · rw [if_neg he] at h
    rcases exceptOkInj h with rfl
    intro hc
    rw [hc] at he
    exact he rfl

theorem namesOk_append_one {ns : List Node} {x : Node}
    (h : ∀ nd ∈ ns, namesOkNode nd) (hx : namesOkNode x) :
    ∀ nd ∈ ns ++ [x], namesOkNode nd := by
  intro nd hnd
  rcases List.mem_append.mp hnd with h1 | h1
  · exact h nd h1
  · rcases List.mem_singleton.mp h1 with rfl; exact hx

theorem processEvent_namesOk {s s' : PState} {e : PEvent}
    (h : ∀ nd ∈ s.nodes, namesOkNode nd) (hp : processEvent s e = Except.ok s') :
    ∀ nd ∈ s'.nodes, namesOkNode nd := by
  cases e with
  | eOpenIf ref =>
    rcases exceptOkInj hp with rfl
    exact namesOk_append_one h trivial
  | eElseif ref =>
    have hp' : template_parse_elseif ref s = Except.ok s' := hp
    unfold template_parse_elseif at hp'
    split at hp'
    · split at hp'
      · exact absurd hp' (by simp)
      · rcases exceptOkInj hp' with rfl
        exact namesOk_append_one (namesOk_setIfNext (namesOk_append_one h trivial)) trivial
    · exact absurd hp' (by simp)
  | eElse =>
    have hp' : template_parse_else s = Except.ok s' := hp
    unfold template_parse_else at hp'
    split at hp'
    · split at hp'
      · exact absurd hp' (by simp)
      · rcases exceptOkInj hp' with rfl
        exact namesOk_setIfNext (namesOk_append_one h trivial)
    · exact absurd hp' (by simp)
  | eCloseIf =>
    have hp' : template_parse_if_close s = Except.ok s' := hp
    unfold template_parse_if_close at hp'
    split at hp'
    case _ start last cnt rest heq =>
      rcases exceptOkInj hp' with rfl
      refine namesOk_walkPatch cnt _ start _ ?_
      split
      · exact namesOk_setIfNext h
      · exact h
    case _ => exact absurd hp' (by simp)
  | eOpenFor ref names =>
    have hp' : template_parse_for_open ref names s = Except.ok s' := hp
    unfold template_parse_for_open at hp'
    split at hp'
    · exact absurd hp' (by simp)
    case _ l hn =>
      rcases exceptOkInj hp' with rfl
      exact namesOk_append_one (namesOk_append_one h trivial)
        (template_parse_names_nonempty hn)
  | eCloseFor =>
    have hp' : template_parse_for_close s = Except.ok s' := hp
    unfold template_parse_for_close at hp'
    split at hp'
    case _ start rest heq =>
      rcases exceptOkInj hp' with rfl
      exact namesOk_setForNextNext (namesOk_append_one h trivial)
    case _ => exact absurd hp' (by simp)
  | eSet names ref =>
    have hp' : template_parse_set names ref s = Except.ok s' := hp
    unfold template_parse_set at hp'
    split at hp'
    · exact absurd hp' (by simp)
    case _ l hn =>
      rcases exceptOkInj hp' with rfl
      exact namesOk_append_one h (template_parse_names_nonempty hn)
  | eInclude ref =>
    rcases exceptOkInj hp with rfl
    exact namesOk_append_one h trivial
  | eSub ref flags =>
    rcases exceptOkInj hp with rfl
    exact namesOk_append_one h trivial
  | eRaw str =>
    rcases exceptOkInj hp with rfl
    exact namesOk_append_one h trivial

theorem processEvents_namesOk :
    ∀ (evs : List PEvent) (s s' : PState),
      (∀ nd ∈ s.nodes, namesOkNode nd) → processEvents evs s = Except.ok s' →
      ∀ nd ∈ s'.nodes, namesOkNode nd := by
  intro evs
  induction evs with
  | nil =>
    intro s s' h hp
    rcases Option.some_inj.mp (congrArg (fun x => x.toOption) hp) with rfl
    exact h
  | cons e evs ih =>
    intro s s' h hp
    unfold processEvents at hp
    rcases he : processEvent s e with m | s1
    · rw [he] at hp; exact absurd hp (by simp)
    · rw [he] at hp
      exact ih s1 s' (processEvent_namesOk h he) hp

/-- C10: a `names` attribute containing no name token fails compilation with
the "empty names" parse error; `template_parse_names` never returns an empty
list; consequently every `ForNext`/`Set` node of a successfully compiled
template carries a non-empty name list. -/
theorem c10_empty_names_rejected :
    (∀ s : String, (∀ c ∈ s.data, isNameDelim c = true) →
      template_parse_names s = Except.error "empty names") ∧
    (∀ (s : String) (l : List String), template_parse_names s = Except.ok l → l ≠ []) ∧
    (∀ (evs : List PEvent) (ns : List Node), compileEvents evs = Except.ok ns →
      ∀ nd ∈ ns, namesOkNode nd) := by
  refine ⟨?_, ?_, ?_⟩
  · intro s hall
    unfold template_parse_names
    rw [tokenizeNames_all_delims s.data hall]
    rfl
  · intro s l h
    exact template_parse_names_nonempty h
  · intro evs ns h
    unfold compileEvents at h
    rcases hp : processEvents evs { nodes := [], blocks := [] } with m | s'
    · rw [hp] at h; exact absurd h (by simp)
    · rw [hp] at h
      have h2 : (if s'.blocks.length ≠ 0 then
          (Except.error "open elements at end of template" : Except String (List Node))
          else Except.ok s'.nodes) = Except.ok ns := h
      by_cases hb : s'.blocks.length ≠ 0
      · rw [if_pos hb] at h2; exact absurd h2 (by simp)
      · rw [if_neg hb] at h2
        rcases exceptOkInj h2 with rfl
        exact processEvents_namesOk evs _ s' (by intro nd hnd; exact absurd hnd (by simp)) hp

/-- Witness for `c10_empty_names_rejected` at concrete inputs: a delimiter-only
names attribute, a successful parse, and a compiled template with one `for`
element. -/
theorem c10_empty_names_rejected_witness :
    template_parse_names " ,,\t " = Except.error "empty names" ∧
    (["x", "y"] : List String) ≠ [] ∧
    (∀ nd ∈ [Node.forInit 7, Node.forNext ["x", "y"] 3, Node.jump 1], namesOkNode nd) :=
  ⟨c10_empty_names_rejected.1 " ,,\t " (by decide),
   c10_empty_names_rejected.2.1 "x y" ["x", "y"] rfl,
   c10_empty_names_rejected.2.2 [PEvent.eOpenFor 7 "x,y", PEvent.eCloseFor]
     [Node.forInit 7, Node.forNext ["x", "y"] 3, Node.jump 1] rfl⟩

/-! ### List access helpers -/

section GetD

variable {α : Type} {l A B : List α} {i j : Nat} {x d : α}

theorem getD_set_self (h : i < l.length) : (l.set i x).getD i d = x := by
  simp [List.getD, List.get?_eq_getElem?, List.getElem?_set_self', List.getElem?_eq_getElem h]

theorem getD_set_ne (h : i ≠ j) : (l.set i x).getD j d = l.getD j d := by
  simp [List.getD, List.get?_eq_getElem?, List.getElem?_set_ne h]

theorem getD_append_lt (h : i < A.length) : (A ++ B).getD i d = A.getD i d := by
  simp [List.getD, List.get?_eq_getElem?, List.getElem?_append_left h]

theorem getD_append_len : (A ++ x :: B).getD A.length d = x := by
  simp [List.getD, List.get?_eq_getElem?, List.getElem?_append_right (le_refl A.length)]

theorem getD_in_bounds (hne : l.getD i d ≠ d) : i < l.length := by
  by_contra hi
  rw [List.getD_eq_default] at hne
  · exact hne rfl
  · omega

end GetD

/-! ### C5: no unresolved target survives compilation -/

/-- Every explicit jump target of the node lies in `[0, bound]` — in
particular it is not the `-1` sentinel. -/
def targetsOk (nd : Node) (bound : Nat) : Prop :=
  match nd with
  | Node.jump nx => 0 ≤ nx ∧ nx ≤ (bound : Int)
  | Node.if_ _ nx => 0 ≤ nx ∧ nx ≤ (bound : Int)
  | Node.forNext _ nx => 0 ≤ nx ∧ nx ≤ (bound : Int)
  | _ => True

theorem targetsOk_mono {nd : Node} {b b' : Nat} (h : targetsOk nd b) (hb : b ≤ b') :
    targetsOk nd b' := by
  cases nd <;> simp [targetsOk] at h ⊢ <;> omega

/-- The link structure of an open `if` chain: from the condition node at
`s`, the stored `if_next` fields lead through the indices in `is`; directly
before each link target sits a still-unresolved `Jump`. -/
def chainLinks (ns : List Node) : Nat → List Nat → Prop
  | _, [] => True
  | s, i :: is =>
      (∃ r, ns.getD s Node.none = Node.if_ r (i : Int)) ∧
      ns.getD (i - 1) Node.none = Node.jump (-1) ∧
      s + 2 ≤ i ∧ chainLinks ns i is

/-- `i` is the position of one of the chain's unresolved `Jump` nodes. -/
def inChainJumps (chain : List Nat) (i : Nat) : Prop :=
  ∃ j ∈ chain, i = j - 1

/-- The invariant of the parser state: for each open block, the structure of
its unresolved nodes, and full resolvedness of every node outside them.
`hi` bounds the region governed by the current stack portion (the node count
at the time the block above was pushed; the whole node count at top level). -/
def StackOk (ns : List Node) : List Block → Nat → Prop
  | [], hi => ∀ i, i < hi → targetsOk (ns.getD i Node.none) ns.length
  | Block.bIf s last cnt :: rest, hi =>
      s < hi ∧
      (∃ chain : List Nat,
        chain.length = cnt ∧
        chainLinks ns s chain ∧
        chain.getLastD s ≤ hi ∧
        (last = -1 → chain ≠ []) ∧
        (last ≠ -1 → last = (chain.getLastD s : Int) ∧ chain.getLastD s < hi ∧
          (∃ r, ns.getD (chain.getLastD s) Node.none = Node.if_ r (-1))) ∧
        (∀ i, s ≤ i → i < hi → ¬ ((last ≠ -1 ∧ (i : Int) = last) ∨ inChainJumps chain i) →
          targetsOk (ns.getD i Node.none) ns.length)) ∧
      StackOk ns rest s
  | Block.bFor s :: rest, hi =>
      s < hi ∧
      (∃ names, ns.getD s Node.none = Node.forNext names (-1)) ∧
      (∀ i, s ≤ i → i < hi → i ≠ s → targetsOk (ns.getD i Node.none) ns.length) ∧
      StackOk ns rest s

theorem chainLinks_lb {ns : List Node} :
    ∀ (chain : List Nat) (s : Nat), chainLinks ns s chain → ∀ j ∈ chain, s + 2 ≤ j := by
  intro chain
  induction chain with
  | nil => intro s _ j hj; exact absurd hj (by simp)
  | cons i is ih =>
    intro s hc j hj
    rcases hc with ⟨_, _, hlb, hrest⟩
    rcases List.mem_cons.mp hj with rfl | hj'
    · exact hlb
    · have := ih i hrest j hj'
      omega

theorem chainLinks_end_ge {ns : List Node} :
    ∀ (chain : List Nat) (s : Nat), chainLinks ns s chain → s ≤ chain.getLastD s := by
  intro chain
  induction chain with
  | nil => intro s _; exact le_refl s
  | cons i is ih =>
    intro s hc
    rcases hc with ⟨_, _, hlb, hrest⟩
    rw [List.getLastD_cons]
    have := ih i hrest
    omega

/-- All indices `chainLinks ns s chain` reads lie in `[s, chain.getLastD s)`,
so the predicate transfers to any node list that agrees there. -/
theorem chainLinks_agree {ns ns' : List Node} :
    ∀ (chain : List Nat) (s : Nat),
      chainLinks ns s chain →
      (∀ k, s ≤ k → k < chain.getLastD s → ns'.getD k Node.none = ns.getD k Node.none) →
      chainLinks ns' s chain := by
  intro chain
  induction chain with
  | nil => intro s _ _; trivial
  | cons i is ih =>
    intro s hc hagree
    rcases hc with ⟨⟨r, hs⟩, hj, hlb, hrest⟩
    have hsub : i ≤ is.getLastD i := chainLinks_end_ge is i hrest
    have hend : (i :: is).getLastD s = is.getLastD i := List.getLastD_cons s i is
    refine ⟨⟨r, ?_⟩, ?_, hlb, ?_⟩
    · rw [hagree s (le_refl s) (by omega)]
      exact hs
    · rw [hagree (i - 1) (by omega) (by omega)]
      exact hj
    · refine ih i hrest ?_
      intro k hk1 hk2
      exact hagree k (by omega) (by omega)

/-- `StackOk` only reads node indices below `hi`, so it transfers to any
longer node list that agrees below `hi`. -/
theorem StackOk_agree {ns ns' : List Node} :
    ∀ (blocks : List Block) (hi : Nat),
      StackOk ns blocks hi →
      (∀ k, k < hi → ns'.getD k Node.none = ns.getD k Node.none) →
      ns.length ≤ ns'.length →
      StackOk ns' blocks hi := by
  intro blocks
  induction blocks with
  | nil =>
    intro hi h hagree hlen i hi'
    rw [hagree i hi']
    exact targetsOk_mono (h i hi') hlen
  | cons b rest ih =>
    intro hi h hagree hlen
    cases b with
    | bIf s last cnt =>
      rcases h with ⟨hs, ⟨chain, hclen, hlinks, hend, hne, hlast, hreg⟩, hrest⟩
      have hendge : s ≤ chain.getLastD s := chainLinks_end_ge chain s hlinks
      refine ⟨hs, ⟨chain, hclen, ?_, hend, hne, ?_, ?_⟩, ?_⟩
      · refine chainLinks_agree chain s hlinks ?_
        intro k hk1 hk2
        exact hagree k (by omega)
      · intro hl
        rcases hlast hl with ⟨h1, h2, r, h3⟩
        refine ⟨h1, h2, r, ?_⟩
        rw [hagree _ h2]
        exact h3
      · intro i hi1 hi2 hexempt
        rw [hagree i hi2]
        exact targetsOk_mono (hreg i hi1 hi2 hexempt) hlen
      · exact ih s hrest (fun k hk => hagree k (by omega)) hlen
    | bFor s =>
      rcases h with ⟨hs, ⟨names, hnode⟩, hreg, hrest⟩
      refine ⟨hs, ⟨names, ?_⟩, ?_, ?_⟩
      · rw [hagree s hs]; exact hnode
      · intro i hi1 hi2 hi3
        rw [hagree i hi2]
        exact targetsOk_mono (hreg i hi1 hi2 hi3) hlen
      · exact ih s hrest (fun k hk => hagree k (by omega)) hlen

/-- Widen the region bound of the top stack portion, given that the newly
covered indices are fully resolved. -/
theorem StackOk_widen {ns : List Node} {blocks : List Block} {hi hi' : Nat}
    (h : StackOk ns blocks hi) (hle : hi ≤ hi')
    (hnew : ∀ i, hi ≤ i → i < hi' → targetsOk (ns.getD i Node.none) ns.length) :
    StackOk ns blocks hi' := by
  cases blocks with
  | nil =>
    intro i hilt
    by_cases h1 : i < hi
    · exact h i h1
    · exact hnew i (by omega) hilt
  | cons b rest =>
    cases b with
    | bIf s last cnt =>
      rcases h with ⟨hs, ⟨chain, hclen, hlinks, hend, hne, hlast, hreg⟩, hrest⟩
      refine ⟨by omega, ⟨chain, hclen, hlinks, by omega, hne, ?_, ?_⟩, hrest⟩
      · intro hl
        rcases hlast hl with ⟨h1, h2, h3⟩
        exact ⟨h1, by omega, h3⟩
      · intro i hi1 hi2 hexempt
        by_cases hcase : i < hi
        · exact hreg i hi1 hcase hexempt
        · exact hnew i (by omega) hi2
    | bFor s =>
      rcases h with ⟨hs, hnode, hreg, hrest⟩
      refine ⟨by omega, hnode, ?_, hrest⟩
      intro i hi1 hi2 hi3
      by_cases hcase : i < hi
      · exact hreg i hi1 hcase hi3
      · exact hnew i (by omega) hi2

/-- Appending a fully resolved node preserves the invariant. -/
theorem StackOk_append {ns : List Node} {blocks : List Block} {x : Node}
    (h : StackOk ns blocks ns.length) (hx : targetsOk x (ns.length + 1)) :
    StackOk (ns ++ [x]) blocks (ns.length + 1) := by
  have hagree : ∀ k, k < ns.length → (ns ++ [x]).getD k Node.none = ns.getD k Node.none := by
    intro k hk
    exact getD_append_lt hk
  have hlen : ns.length ≤ (ns ++ [x]).length := by simp
  have h1 : StackOk (ns ++ [x]) blocks ns.length := StackOk_agree blocks ns.length h hagree hlen
  refine StackOk_widen h1 (by omega) ?_
  intro i hi1 hi2
  have : i = ns.length := by omega
  subst this
  have : (ns ++ [x]).getD ns.length Node.none = x := getD_append_len
  rw [this]
  refine targetsOk_mono hx ?_
  simp

theorem setIfNext_eq {ns : List Node} {i : Nat} {r : Nat} {nx t : Int}
    (h : ns.getD i Node.none = Node.if_ r nx) :
    setIfNext ns i t = ns.set i (Node.if_ r t) := by
  unfold setIfNext
  simp only [h]

theorem setJumpNext_eq {ns : List Node} {i : Nat} {nx t : Int}
    (h : ns.getD i Node.none = Node.jump nx) :
    setJumpNext ns i t = ns.set i (Node.jump t) := by
  unfold setJumpNext
  simp only [h]

theorem setForNextNext_eq {ns : List Node} {i : Nat} {names : List String} {nx t : Int}
    (h : ns.getD i Node.none = Node.forNext names nx) :
    setForNextNext ns i t = ns.set i (Node.forNext names t) := by
  unfold setForNextNext
  simp only [h]

/-- Extending a chain by one link. -/
theorem chainLinks_snoc {ns : List Node} :
    ∀ (chain : List Nat) (s new : Nat),
      chainLinks ns s chain →
      (∃ r, ns.getD (chain.getLastD s) Node.none = Node.if_ r ((new : Nat) : Int)) →
      ns.getD (new - 1) Node.none = Node.jump (-1) →
      chain.getLastD s + 2 ≤ new →
      chainLinks ns s (chain ++ [new]) := by
  intro chain
  induction chain with
  | nil =>
    intro s new _ hif hjump hgap
    exact ⟨hif, hjump, hgap, trivial⟩
  | cons i is ih =>
    intro s new hc hif hjump hgap
    rcases hc with ⟨h1, h2, h3, hrest⟩
    rw [List.getLastD_cons] at hif hgap
    exact ⟨h1, h2, h3, ih i new hrest hif hjump hgap⟩

theorem walkPatch_length {tgt : Int} :
    ∀ (c : Nat) (ns : List Node) (idx : Nat), (walkPatch ns idx c tgt).length = ns.length := by
  intro c
  induction c with
  | zero => intro ns idx; rfl
  | succ c ih =>
    intro ns idx
    rw [walkPatch, ih]
    unfold setJumpNext
    split
    · rw [List.length_set]
    · rfl

/-- Characterisation of the backpatch walk along a chain: exactly the
chain's `Jump` slots are overwritten with the target. -/
theorem walkPatch_spec {tgt : Int} :
    ∀ (chain : List Nat) (ns : List Node) (s : Nat),
      chainLinks ns s chain →
      (∀ j, inChainJumps chain j →
        (walkPatch ns s chain.length tgt).getD j Node.none = Node.jump tgt) ∧
      (∀ j, ¬ inChainJumps chain j →
        (walkPatch ns s chain.length tgt).getD j Node.none = ns.getD j Node.none) := by
  intro chain
  induction chain with
  | nil =>
    intro ns s _
    constructor
    · intro j hj
      rcases hj with ⟨k, hk, _⟩
      exact absurd hk (by simp)
    · intro j _
      rfl
  | cons i is ih =>
    intro ns s hc
    rcases hc with ⟨⟨r, hs⟩, hj, hlb, hrest⟩
    have hjb : i - 1 < ns.length := getD_in_bounds (by rw [hj]; simp)
    have hlow : ∀ k ∈ is, i + 2 ≤ k := chainLinks_lb is i hrest
    have hstep : walkPatch ns s (i :: is).length tgt =
        walkPatch (ns.set (i - 1) (Node.jump tgt)) i is.length tgt := by
      show walkPatch ns s (is.length + 1) tgt = _
      rw [walkPatch]
      have h1 : (ifNextOf (ns.getD s Node.none)).toNat = i := by
        rw [hs]
        simp [ifNextOf]
      rw [h1, setJumpNext_eq hj]
    have hlinks1 : chainLinks (ns.set (i - 1) (Node.jump tgt)) i is := by
      refine chainLinks_agree is i hrest ?_
      intro k hk1 _
      exact getD_set_ne (by omega)
    have hih := ih (ns.set (i - 1) (Node.jump tgt)) i hlinks1
    constructor
    · intro j hjc
      rcases hjc with ⟨k, hk, rfl⟩
      rcases List.mem_cons.mp hk with rfl | hk'
      · rw [hstep]
        have : ¬ inChainJumps is (k - 1) := by
          intro ⟨k2, hk2, he⟩
          have := hlow k2 hk2
          omega
        rw [hih.2 (k - 1) this]
        exact getD_set_self hjb
      · rw [hstep]
        exact hih.1 (k - 1) ⟨k, hk', rfl⟩
    · intro j hjc
      have hne1 : ¬ inChainJumps is j := fun ⟨k, hk, he⟩ => hjc ⟨k, by simp [hk], he⟩
      have hne2 : j ≠ i - 1 := fun he => hjc ⟨i, by simp, he⟩
      rw [hstep, hih.2 j hne1]
      exact getD_set_ne (by omega)

/-- The parser invariant: the whole node list is governed by the block
stack, with the current node count as the top region bound. -/
def ParserInv (s : PState) : Prop :=
  StackOk s.nodes s.blocks s.nodes.length

theorem inv_openIf (ref : Nat) (st : PState) (h : ParserInv st) :
    ParserInv (template_parse_if_open ref st) := by
  unfold ParserInv at h
  unfold ParserInv template_parse_if_open
  simp only [List.length_append, List.length_cons, List.length_nil, Nat.add_zero]
  refine ⟨by omega, ⟨[], rfl, trivial, ?_, ?_, ?_, ?_⟩, ?_⟩
  · show st.nodes.length ≤ st.nodes.length + 1
    omega
  · intro hlast
    exact absurd hlast (by omega)
  · intro _
    refine ⟨rfl, ?_, ⟨ref, ?_⟩⟩
    · show st.nodes.length < st.nodes.length + 1
      omega
    · show (st.nodes ++ Node.if_ ref (-1) :: []).getD st.nodes.length Node.none = _
      rw [getD_append_len]
  · intro i hi1 hi2 hexempt
    exfalso
    apply hexempt
    left
    have : i = st.nodes.length := by omega
    subst this
    exact ⟨by omega, rfl⟩
  · refine StackOk_agree st.blocks st.nodes.length h ?_ (by simp)
    intro k hk
    exact getD_append_lt hk

theorem inv_append_resolved {st : PState} (x : Node) (h : ParserInv st)
    (hx : targetsOk x (st.nodes.length + 1)) :
    StackOk (st.nodes ++ [x]) st.blocks (st.nodes.length + 1) :=
  StackOk_append h hx

theorem inv_elseif {ref : Nat} {st st' : PState}
    (h : ParserInv st) (hp : template_parse_elseif ref st = Except.ok st') :
    ParserInv st' := by
  unfold template_parse_elseif at hp
  split at hp
  case _ start last cnt rest heq =>
    split at hp
    · exact absurd hp (by simp)
    case _ hlast =>
      rcases exceptOkInj hp with rfl
      unfold ParserInv at h ⊢
      rw [heq] at h
      rcases h with ⟨hsn, ⟨chain, hclen, hlinks, hend, hne, hlastc, hreg⟩, hrest⟩
      rcases hlastc hlast with ⟨hcast, helt, r, hnode⟩
      have hesge : start ≤ chain.getLastD start := chainLinks_end_ge chain start hlinks
      have htoNat : last.toNat = chain.getLastD start := by
        rw [hcast]
        exact Int.toNat_natCast _
      simp only
      rw [htoNat]
      set n := st.nodes.length with hn
      set e := chain.getLastD start with he
      have hnode1 : (st.nodes ++ [Node.jump (-1)]).getD e Node.none = Node.if_ r (-1) := by
        rw [getD_append_lt helt]
        exact hnode
      rw [setIfNext_eq hnode1]
      set ns2 := (st.nodes ++ [Node.jump (-1)]).set e (Node.if_ r ((n + 1 : Nat) : Int))
        with hns2
      have hlen1 : (st.nodes ++ [Node.jump (-1)]).length = n + 1 := by simp
      have hlen2 : ns2.length = n + 1 := by rw [hns2, List.length_set, hlen1]
      have hlenNS : (ns2 ++ [Node.if_ ref (-1)]).length = n + 2 := by
        simp [hlen2]
      rw [hlenNS]
      -- node accesses in the final list
      have agr_lt : ∀ k, k < n → k ≠ e →
          (ns2 ++ [Node.if_ ref (-1)]).getD k Node.none = st.nodes.getD k Node.none := by
        intro k hk hke
        rw [getD_append_lt (by omega), hns2, getD_set_ne (by omega), getD_append_lt hk]
      have agr_e : (ns2 ++ [Node.if_ ref (-1)]).getD e Node.none =
          Node.if_ r ((n + 1 : Nat) : Int) := by
        rw [getD_append_lt (by omega), hns2, getD_set_self (by rw [hlen1]; omega)]
      have agr_n : (ns2 ++ [Node.if_ ref (-1)]).getD n Node.none = Node.jump (-1) := by
        rw [getD_append_lt (by omega), hns2, getD_set_ne (by omega)]
        exact getD_append_len
      have agr_n1 : (ns2 ++ [Node.if_ ref (-1)]).getD (n + 1) Node.none =
          Node.if_ ref (-1) := by
        rw [← hlen2]
        exact getD_append_len
      refine ⟨by omega, ⟨chain ++ [n + 1], ?_, ?_, ?_, ?_, ?_, ?_⟩, ?_⟩
      · rw [List.length_append, hclen]
        rfl
      · refine chainLinks_snoc chain start (n + 1) ?_ ?_ ?_ (by omega)
        · refine chainLinks_agree chain start hlinks ?_
          intro k hk1 hk2
          exact agr_lt k (by omega) (by omega)
        · rw [← he, agr_e]
          exact ⟨r, rfl⟩
        · have : n + 1 - 1 = n := by omega
          rw [this]
          exact agr_n
      · rw [List.getLastD_concat]
        omega
      · intro hc
        exact absurd hc (by omega)
      · intro _
        rw [List.getLastD_concat]
        exact ⟨rfl, by omega, ⟨ref, agr_n1⟩⟩
      · intro i hi1 hi2 hexempt
        by_cases hie : i = n + 1
        · exfalso
          apply hexempt
          left
          exact ⟨by omega, by rw [hie]⟩
        · by_cases hin : i = n
          · exfalso
            apply hexempt
            right
            exact ⟨n + 1, by simp, by omega⟩
          · by_cases hieq : i = e
            · rw [hieq, agr_e]
              simp only [targetsOk, hlenNS]
              omega
            · rw [agr_lt i (by omega) hieq]
              refine targetsOk_mono (hreg i hi1 (by omega) ?_) (by omega)
              intro hold
              rcases hold with ⟨_, hcast'⟩ | hjumps
              · rw [hcast] at hcast'
                have : i = e := by omega
                exact hieq this
              · apply hexempt
                right
                rcases hjumps with ⟨j, hj, hj2⟩
                exact ⟨j, List.mem_append_left _ hj, hj2⟩
      · refine StackOk_agree rest start hrest ?_ (by omega)
        intro k hk
        exact agr_lt k (by omega) (by omega)
  case _ => exact absurd hp (by simp)

theorem chainLinks_le_end {ns : List Node} :
    ∀ (chain : List Nat) (s : Nat), chainLinks ns s chain →
      ∀ j ∈ chain, j ≤ chain.getLastD s := by
  intro chain
  induction chain with
  | nil => intro s _ j hj; exact absurd hj (by simp)
  | cons i is ih =>
    intro s hc j hj
    rcases hc with ⟨_, _, hlb, hrest⟩
    rw [List.getLastD_cons]
    rcases List.mem_cons.mp hj with rfl | hj'
    · exact chainLinks_end_ge is j hrest
    · exact ih i hrest j hj'

theorem inv_else {st st' : PState}
    (h : ParserInv st) (hp : template_parse_else st = Except.ok st') :
    ParserInv st' := by
  unfold template_parse_else at hp
  split at hp
  case _ start last cnt rest heq =>
    split at hp
    · exact absurd hp (by simp)
    case _ hlast =>
      rcases exceptOkInj hp with rfl
      unfold ParserInv at h ⊢
      rw [heq] at h
      rcases h with ⟨hsn, ⟨chain, hclen, hlinks, hend, hne, hlastc, hreg⟩, hrest⟩
      rcases hlastc hlast with ⟨hcast, helt, r, hnode⟩
      have hesge : start ≤ chain.getLastD start := chainLinks_end_ge chain start hlinks
      have htoNat : last.toNat = chain.getLastD start := by
        rw [hcast]
        exact Int.toNat_natCast _
      simp only
      rw [htoNat]
      set n := st.nodes.length with hn
      set e := chain.getLastD start with he
      have hnode1 : (st.nodes ++ [Node.jump (-1)]).getD e Node.none = Node.if_ r (-1) := by
        rw [getD_append_lt helt]
        exact hnode
      rw [setIfNext_eq hnode1]
      set ns2 := (st.nodes ++ [Node.jump (-1)]).set e (Node.if_ r ((n + 1 : Nat) : Int))
        with hns2
      have hlen1 : (st.nodes ++ [Node.jump (-1)]).length = n + 1 := by simp
      have hlen2 : ns2.length = n + 1 := by rw [hns2, List.length_set, hlen1]
      rw [hlen2]
      have agr_lt : ∀ k, k < n → k ≠ e →
          ns2.getD k Node.none = st.nodes.getD k Node.none := by
        intro k hk hke
        rw [hns2, getD_set_ne (by omega), getD_append_lt hk]
      have agr_e : ns2.getD e Node.none = Node.if_ r ((n + 1 : Nat) : Int) := by
        rw [hns2, getD_set_self (by rw [hlen1]; omega)]
      have agr_n : ns2.getD n Node.none = Node.jump (-1) := by
        rw [hns2, getD_set_ne (by omega)]
        exact getD_append_len
      refine ⟨by omega, ⟨chain ++ [n + 1], ?_, ?_, ?_, ?_, ?_, ?_⟩, ?_⟩
      · rw [List.length_append, hclen]
        rfl
      · refine chainLinks_snoc chain start (n + 1) ?_ ?_ ?_ (by omega)
        · refine chainLinks_agree chain start hlinks ?_
          intro k hk1 hk2
          exact agr_lt k (by omega) (by omega)
        · rw [← he, agr_e]
          exact ⟨r, rfl⟩
        · have : n + 1 - 1 = n := by omega
          rw [this]
          exact agr_n
      · rw [List.getLastD_concat]
      · intro _
        simp
      · intro hc
        exact absurd rfl hc
      · intro i hi1 hi2 hexempt
        by_cases hin : i = n
        · exfalso
          apply hexempt
          right
          exact ⟨n + 1, by simp, by omega⟩
        · by_cases hieq : i = e
          · rw [hieq, agr_e]
            simp only [targetsOk, hlen2]
            omega
          · rw [agr_lt i (by omega) hieq]
            refine targetsOk_mono (hreg i hi1 (by omega) ?_) (by omega)
            intro hold
            rcases hold with ⟨_, hcast'⟩ | hjumps
            · rw [hcast] at hcast'
              have : i = e := by omega
              exact hieq this
            · apply hexempt
              right
              rcases hjumps with ⟨j, hj, hj2⟩
              exact ⟨j, List.mem_append_left _ hj, hj2⟩
      · refine StackOk_agree rest start hrest ?_ (by omega)
        intro k hk
        exact agr_lt k (by omega) (by omega)
  case _ => exact absurd hp (by simp)

theorem inv_closeIf {st st' : PState}
    (h : ParserInv st) (hp : template_parse_if_close st = Except.ok st') :
    ParserInv st' := by
  unfold template_parse_if_close at hp
  split at hp
  case _ start last cnt rest heq =>
    rcases exceptOkInj hp with rfl
    unfold ParserInv at h ⊢
    rw [heq] at h
    rcases h with ⟨hsn, ⟨chain, hclen, hlinks, hend, hne, hlastc, hreg⟩, hrest⟩
    have hesge : start ≤ chain.getLastD start := chainLinks_end_ge chain start hlinks
    have hjub : ∀ j ∈ chain, start + 2 ≤ j := chainLinks_lb chain start hlinks
    have hjle : ∀ j ∈ chain, j ≤ chain.getLastD start := chainLinks_le_end chain start hlinks
    simp only
    set n := st.nodes.length with hn
    set e := chain.getLastD start with he
    by_cases hl : last ≠ -1
    · rcases hlastc hl with ⟨hcast, helt, r, hnode⟩
      have htoNat : last.toNat = e := by
        rw [hcast]
        exact Int.toNat_natCast _
      rw [if_pos hl, htoNat, setIfNext_eq hnode]
      set ns1 := st.nodes.set e (Node.if_ r (n : Int)) with hns1
      have hlen1 : ns1.length = n := by rw [hns1, List.length_set]
      have hlinks1 : chainLinks ns1 start chain := by
        refine chainLinks_agree chain start hlinks ?_
        intro k hk1 hk2
        rw [hns1, getD_set_ne (by omega)]
      have hspec := @walkPatch_spec (n : Int) chain ns1 start hlinks1
      rw [← hclen]
      have hwlen : (walkPatch ns1 start chain.length (n : Int)).length = n := by
        rw [walkPatch_length, hlen1]
      rw [hclen] at hwlen ⊢
      rw [hwlen]
      have hagr : ∀ k, k < start →
          (walkPatch ns1 start cnt (n : Int)).getD k Node.none = st.nodes.getD k Node.none := by
        intro k hk
        rw [← hclen]
        rw [hspec.2 k (by
          intro ⟨j, hj, hjeq⟩
          have := hjub j hj
          omega)]
        rw [hns1, getD_set_ne (by omega)]
      refine StackOk_widen (StackOk_agree rest start hrest hagr (by rw [← hclen, walkPatch_length, hlen1])) (by omega) ?_
      intro i hi1 hi2
      rw [← hclen] at hwlen ⊢
      rw [hwlen]
      by_cases hij : inChainJumps chain i
      · rw [hspec.1 i hij]
        simp only [targetsOk]
        omega
      · rw [hspec.2 i hij]
        by_cases hie : i = e
        · rw [hie, hns1, getD_set_self (by omega)]
          simp only [targetsOk]
          omega
        · rw [hns1, getD_set_ne (by omega)]
          refine targetsOk_mono (hreg i hi1 hi2 ?_) (by omega)
          intro hold
          rcases hold with ⟨_, hcast'⟩ | hjumps
          · rw [hcast] at hcast'
            exact hie (by omega)
          · exact hij hjumps
    · rw [if_neg hl]
      push_neg at hl
      have hchne : chain ≠ [] := hne hl
      have hspec := @walkPatch_spec (n : Int) chain st.nodes start hlinks
      rw [← hclen]
      have hwlen : (walkPatch st.nodes start chain.length (n : Int)).length = n := by
        rw [walkPatch_length]
      rw [hwlen]
      have hagr : ∀ k, k < start →
          (walkPatch st.nodes start chain.length (n : Int)).getD k Node.none =
            st.nodes.getD k Node.none := by
        intro k hk
        refine hspec.2 k ?_
        intro ⟨j, hj, hjeq⟩
        have := hjub j hj
        omega
      refine StackOk_widen (StackOk_agree rest start hrest hagr (by rw [walkPatch_length])) (by omega) ?_
      intro i hi1 hi2
      rw [hwlen]
      by_cases hij : inChainJumps chain i
      · rw [hspec.1 i hij]
        simp only [targetsOk]
        omega
      · rw [hspec.2 i hij]
        refine targetsOk_mono (hreg i hi1 hi2 ?_) (by omega)
        intro hold
        rcases hold with ⟨hne', _⟩ | hjumps
        · exact hne' hl
        · exact hij hjumps
  case _ => exact absurd hp (by simp)

theorem inv_openFor {ref : Nat} {names : String} {st st' : PState}
    (h : ParserInv st) (hp : template_parse_for_open ref names st = Except.ok st') :
    ParserInv st' := by
  unfold template_parse_for_open at hp
  split at hp
  · exact absurd hp (by simp)
  case _ l hn =>
    rcases exceptOkInj hp with rfl
    unfold ParserInv at h ⊢
    simp only [List.length_append, List.length_cons, List.length_nil, Nat.zero_add]
    set n := st.nodes.length with hnn
    have hlen1 : (st.nodes ++ [Node.forInit ref]).length = n + 1 := by simp
    refine ⟨by omega, ⟨l, ?_⟩, ?_, ?_⟩
    · rw [← hlen1]
      exact getD_append_len
    · intro i hi1 hi2 hi3
      exfalso
      omega
    · have h1 : StackOk (st.nodes ++ [Node.forInit ref]) st.blocks (n + 1) :=
        StackOk_append h trivial
      refine StackOk_agree st.blocks (n + 1) h1 ?_ ?_
      · intro k hk
        refine getD_append_lt ?_
        rw [hlen1]
        omega
      · simp

theorem inv_closeFor {st st' : PState}
    (h : ParserInv st) (hp : template_parse_for_close st = Except.ok st') :
    ParserInv st' := by
  unfold template_parse_for_close at hp
  split at hp
  case _ start rest heq =>
    rcases exceptOkInj hp with rfl
    unfold ParserInv at h ⊢
    rw [heq] at h
    rcases h with ⟨hsn, ⟨names, hnode⟩, hreg, hrest⟩
    set n := st.nodes.length with hn
    simp only
    have hnode1 : (st.nodes ++ [Node.jump (start : Int)]).getD start Node.none =
        Node.forNext names (-1) := by
      rw [getD_append_lt hsn]
      exact hnode
    rw [setForNextNext_eq hnode1]
    set ns2 := (st.nodes ++ [Node.jump (start : Int)]).set start
      (Node.forNext names ((n + 1 : Nat) : Int)) with hns2
    have hlen1 : (st.nodes ++ [Node.jump (start : Int)]).length = n + 1 := by simp
    have hlen2 : ns2.length = n + 1 := by rw [hns2, List.length_set, hlen1]
    rw [hlen2]
    have hagr : ∀ k, k < n → k ≠ start →
        ns2.getD k Node.none = st.nodes.getD k Node.none := by
      intro k hk hks
      rw [hns2, getD_set_ne (by omega), getD_append_lt hk]
    have h1 : StackOk ns2 rest start := by
      refine StackOk_agree rest start hrest ?_ (by omega)
      intro k hk
      exact hagr k (by omega) (by omega)
    refine StackOk_widen h1 (by omega) ?_
    intro i hi1 hi2
    rw [hlen2]
    by_cases his : i = start
    · rw [his, hns2, getD_set_self (by rw [hlen1]; omega)]
      simp only [targetsOk]
      omega
    · by_cases hin : i = n
      · rw [hin, hns2, getD_set_ne (by omega)]
        have h2 : (st.nodes ++ [Node.jump (start : Int)]).getD n Node.none =
            Node.jump (start : Int) := getD_append_len
        rw [h2]
        simp only [targetsOk]
        omega
      · rw [hagr i (by omega) his]
        exact targetsOk_mono (hreg i hi1 (by omega) his) (by omega)
  case _ => exact absurd hp (by simp)

theorem processEvent_inv {st st' : PState} {e : PEvent}
    (h : ParserInv st) (hp : processEvent st e = Except.ok st') : ParserInv st' := by
  cases e with
  | eOpenIf ref =>
    rcases exceptOkInj hp with rfl
    exact inv_openIf ref st h
  | eElseif ref => exact inv_elseif h hp
  | eElse => exact inv_else h hp
  | eCloseIf => exact inv_closeIf h hp
  | eOpenFor ref names => exact inv_openFor h hp
  | eCloseFor => exact inv_closeFor h hp
  | eSet names ref =>
    have hp' : template_parse_set names ref st = Except.ok st' := hp
    unfold template_parse_set at hp'
    split at hp'
    · exact absurd hp' (by simp)
    case _ l hn =>
      rcases exceptOkInj hp' with rfl
      unfold ParserInv
      simp only [List.length_append, List.length_cons, List.length_nil, Nat.zero_add]
      exact inv_append_resolved (Node.set l ref) h trivial
  | eInclude ref =>
    rcases exceptOkInj hp with rfl
    unfold ParserInv template_parse_include
    simp only [List.length_append, List.length_cons, List.length_nil, Nat.zero_add]
    exact inv_append_resolved (Node.incl ref) h trivial
  | eSub ref flags =>
    rcases exceptOkInj hp with rfl
    unfold ParserInv template_parse_sub
    simp only [List.length_append, List.length_cons, List.length_nil, Nat.zero_add]
    exact inv_append_resolved (Node.sub ref flags) h trivial
  | eRaw str =>
    rcases exceptOkInj hp with rfl
    unfold ParserInv template_parse_raw
    simp only [List.length_append, List.length_cons, List.length_nil, Nat.zero_add]
    exact inv_append_resolved (Node.raw str) h trivial

theorem processEvents_inv :
    ∀ (evs : List PEvent) (st st' : PState),
      ParserInv st → processEvents evs st = Except.ok st' → ParserInv st' := by
  intro evs
  induction evs with
  | nil =>
    intro st st' h hp
    rcases exceptOkInj hp with rfl
    exact h
  | cons e evs ih =>
    intro st st' h hp
    unfold processEvents at hp
    rcases he : processEvent st e with m | s1
    · rw [he] at hp; exact absurd hp (by simp)
    · rw [he] at hp
      exact ih s1 st' (processEvent_inv h he) hp

/-- C5: in a successfully compiled template, every `Jump` target, `If`
false-target and `ForNext` end-target is a valid node index in
`[0, node count]` — the `-1` sentinel written at node creation never
survives compilation. -/
theorem c5_no_unresolved_targets (evs : List PEvent) (ns : List Node)
    (h : compileEvents evs = Except.ok ns) :
    ∀ nd ∈ ns, targetsOk nd ns.length := by
  unfold compileEvents at h
  rcases hp : processEvents evs { nodes := [], blocks := [] } with m | s'
  · rw [hp] at h; exact absurd h (by simp)
  · rw [hp] at h
    have h2 : (if s'.blocks.length ≠ 0 then
        (Except.error "open elements at end of template" : Except String (List Node))
        else Except.ok s'.nodes) = Except.ok ns := h
    by_cases hb : s'.blocks.length ≠ 0
    · rw [if_pos hb] at h2; exact absurd h2 (by simp)
    · rw [if_neg hb] at h2
      rcases exceptOkInj h2 with rfl
      have hinv0 : ParserInv { nodes := [], blocks := [] } := by
        intro i hi
        exact absurd hi (by simp)
      have hinv := processEvents_inv evs _ s' hinv0 hp
      unfold ParserInv at hinv
      push_neg at hb
      have hbe : s'.blocks = [] := List.length_eq_zero.mp hb
      rw [hbe] at hinv
      intro nd hnd
      rcases List.mem_iff_getElem.mp hnd with ⟨i, hi, hget⟩
      have := hinv i hi
      rw [List.getD_eq_getElem s'.nodes Node.none hi, hget] at this
      exact this

/-- The event sequence of the C5 witness: an `if`/`elseif`/`else` chain
followed by a `for` element and a substitution. -/
def c5evs : List PEvent :=
  [PEvent.eOpenIf 1, PEvent.eRaw "A", PEvent.eElseif 2, PEvent.eRaw "B", PEvent.eElse,
   PEvent.eRaw "C", PEvent.eCloseIf, PEvent.eOpenFor 3 "x", PEvent.eRaw "D",
   PEvent.eCloseFor, PEvent.eSub 4 1]

/-- The node sequence the compiler produces for `c5evs`. -/
def c5ns : List Node :=
  [Node.if_ 1 3, Node.raw "A", Node.jump 7, Node.if_ 2 6, Node.raw "B", Node.jump 7,
   Node.raw "C", Node.forInit 3, Node.forNext ["x"] 11, Node.raw "D", Node.jump 8,
   Node.sub 4 1]

/-- Witness for `c5_no_unresolved_targets` at `c5evs`. -/
theorem c5_no_unresolved_targets_witness :
    compileEvents c5evs = Except.ok c5ns ∧ ∀ nd ∈ c5ns, targetsOk nd c5ns.length :=
  ⟨rfl, c5_no_unresolved_targets c5evs c5ns rfl⟩

/-! ### Interpreter (template_render_template)

Lua values are modelled by `V`; the binding context (a Lua table mutated by
`lua_setfield`) by an association list with most-recent-first shadowing.
Compiled expressions live in the registry, so the interpreter receives two
evaluation oracles: `evalN ref env` returns the value list produced by
`template_eval` for a registry reference (the Lua call adjusts the result
count, modelled by `luaAdjust`), and `evalIter ref env` the
iterator-function/subject/control triple produced by `template_eval(ref, 3)`
for a `ForInit` node.  Recursive inclusion (`NT_INCLUDE`) goes through the
process-wide template cache and is outside the modelled fragment: executing
an `incl` node halts the model. -/

inductive V : Type where
  | nil
  | boolean (b : Bool)
  | int (n : Int)
  | str (s : String)
deriving DecidableEq, Repr, Inhabited

abbrev Env := List (String × V)

abbrev Iter := V → V → List V

abbrev EvalN := Nat → Env → List V

abbrev EvalIter := Nat → Env → Iter × V × V

/-- Result-count adjustment of a Lua call (`lua_call(L, _, nret)`): missing
results become nil, extra results are dropped. -/
def luaAdjust (n : Nat) (vs : List V) : List V :=
  (vs ++ List.replicate n V.nil).take n

/-- `lua_toboolean`: everything except `nil` and `false` is true. -/
def truthy : V → Bool
  | V.nil => false
  | V.boolean b => b
  | _ => true

/-- Bind values to names positionally, mirroring the `lua_setfield` loop that
runs from the last name down to the first (so for duplicate names the
first-position value is the one that sticks). -/
def bindNames (env : Env) (names : List String) (vals : List V) : Env :=
  (names.zip vals).foldr (fun p e => (p.1, p.2) :: e) env

/-- The `off_t` → `size_t` conversion applied to a jump target (two's
complement for the negative sentinel). -/
def off2size (n : Int) : Nat :=
  if n < 0 then (n + 2 ^ 64).toNat else n.toNat

/-- Stringification of the evaluated substitution value (`NT_SUB` case):
strings and numbers pass `lua_isstring`; `nil` with the suppress flag prints
empty; everything else prints its type name in parentheses. -/
def subStringify (flags : Nat) : V → String
  | V.str s => s
  | V.int n => toString n
  | V.nil => if flags &&& TEMPLATE_FSUPNIL ≠ 0 then "" else "(nil)"
  | V.boolean _ => "(boolean)"

/-- Interpreter state: instruction pointer, binding context, output
accumulated so far, and the stack of retained `(iterator, subject, control)`
triples of active `for` loops. -/
structure RState : Type where
  i : Nat
  env : Env
  out : String
  fors : List (Iter × V × V)

/-- One step of the render loop (the `switch (node->type)` of
`template_render_template`), for `st.i < nodes.length`. -/
def stepNode (evalN : EvalN) (evalIter : EvalIter) (nodes : List Node) (st : RState) :
    Option RState :=
  match nodes.getD st.i Node.none with
  | Node.none => some { st with i := st.i + 1 }
  | Node.jump nx => some { st with i := off2size nx }
  | Node.if_ r nx =>
    if truthy ((evalN r st.env).headD V.nil) then some { st with i := st.i + 1 }
    else some { st with i := off2size nx }
  | Node.forInit r => some { st with i := st.i + 1, fors := evalIter r st.env :: st.fors }
  | Node.forNext names nx =>
    match st.fors with
    | [] => Option.none
    | (f, s, c) :: rest =>
      if (luaAdjust names.length (f s c)).headD V.nil = V.nil then
        some { st with i := off2size nx, fors := rest }
      else
        some { st with
               i := st.i + 1
               env := bindNames st.env names (luaAdjust names.length (f s c))
               fors := (f, s, (luaAdjust names.length (f s c)).headD V.nil) :: rest }
  | Node.set names r =>
    some { st with
           i := st.i + 1
           env := bindNames st.env names (luaAdjust names.length (evalN r st.env)) }
  | Node.incl _ => Option.none
  | Node.sub r flags =>
    some { st with
           i := st.i + 1
           out := st.out ++ sub_write flags (subStringify flags ((evalN r st.env).headD V.nil)) }
  | Node.raw s => some { st with i := st.i + 1, out := st.out ++ s }

/-- The render loop (`while (i < template->nodes->count)`), with fuel. -/
def runTpl (evalN : EvalN) (evalIter : EvalIter) (nodes : List Node) :
    Nat → RState → Option RState
  | 0, st => if st.i < nodes.length then Option.none else some st
  | fuel + 1, st =>
    if st.i < nodes.length then
      match stepNode evalN evalIter nodes st with
      | Option.none => Option.none
      | some st' => runTpl evalN evalIter nodes fuel st'
    else some st

/-- Reachability in a bounded number of interpreter steps. -/
inductive Exec (evalN : EvalN) (evalIter : EvalIter) (nodes : List Node) :
    RState → RState → Prop where
  | refl (st : RState) : Exec evalN evalIter nodes st st
  | step {st st' st'' : RState} :
      st.i < nodes.length →
      stepNode evalN evalIter nodes st = some st' →
      Exec evalN evalIter nodes st' st'' →
      Exec evalN evalIter nodes st st''

theorem Exec.trans {evalN : EvalN} {evalIter : EvalIter} {nodes : List Node}
    {a b c : RState} (h1 : Exec evalN evalIter nodes a b)
    (h2 : Exec evalN evalIter nodes b c) : Exec evalN evalIter nodes a c := by
  induction h1 with
  | refl => exact h2
  | step hlt hstep _ ih => exact Exec.step hlt hstep (ih h2)

theorem runTpl_done {evalN : EvalN} {evalIter : EvalIter} {nodes : List Node}
    {st : RState} (h : nodes.length ≤ st.i) :
    ∀ fuel, runTpl evalN evalIter nodes fuel st = some st := by
  intro fuel
  cases fuel with
  | zero => simp [runTpl]; omega
  | succ fuel => simp [runTpl]; omega

theorem runTpl_of_exec {evalN : EvalN} {evalIter : EvalIter} {nodes : List Node}
    {a b : RState} (h : Exec evalN evalIter nodes a b) :
    ∃ n, ∀ fuel, runTpl evalN evalIter nodes (n + fuel) a =
      runTpl evalN evalIter nodes fuel b := by
  induction h with
  | refl => exact ⟨0, fun fuel => by rw [Nat.zero_add]⟩
  | step hlt hstep _ ih =>
    rcases ih with ⟨n, hn⟩
    refine ⟨n + 1, fun fuel => ?_⟩
    have heq : n + 1 + fuel = (n + fuel) + 1 := by omega
    rw [heq]
    simp only [runTpl]
    rw [if_pos hlt, hstep]
    exact hn fuel

/-- A complete run out of an `Exec` derivation that ends past the node list. -/
theorem runTpl_complete {evalN : EvalN} {evalIter : EvalIter} {nodes : List Node}
    {a b : RState} (h : Exec evalN evalIter nodes a b) (hend : nodes.length ≤ b.i) :
    ∃ n, ∀ fuel, runTpl evalN evalIter nodes (n + fuel) a = some b := by
  rcases runTpl_of_exec h with ⟨n, hn⟩
  exact ⟨n, fun fuel => by rw [hn fuel]; exact runTpl_done hend fuel⟩

theorem step_raw {evalN : EvalN} {evalIter : EvalIter} {nodes : List Node}
    {st : RState} {s : String} (h : nodes.getD st.i Node.none = Node.raw s) :
    stepNode evalN evalIter nodes st =
      some { st with i := st.i + 1, out := st.out ++ s } := by
  simp only [stepNode, h]

theorem step_jump {evalN : EvalN} {evalIter : EvalIter} {nodes : List Node}
    {st : RState} {nx : Int} (h : nodes.getD st.i Node.none = Node.jump nx) :
    stepNode evalN evalIter nodes st = some { st with i := off2size nx } := by
  simp only [stepNode, h]

theorem step_if_true {evalN : EvalN} {evalIter : EvalIter} {nodes : List Node}
    {st : RState} {r : Nat} {nx : Int} (h : nodes.getD st.i Node.none = Node.if_ r nx)
    (ht : truthy ((evalN r st.env).headD V.nil) = true) :
    stepNode evalN evalIter nodes st = some { st with i := st.i + 1 } := by
  simp only [stepNode, h]
  rw [if_pos ht]

theorem step_if_false {evalN : EvalN} {evalIter : EvalIter} {nodes : List Node}
    {st : RState} {r : Nat} {nx : Int} (h : nodes.getD st.i Node.none = Node.if_ r nx)
    (ht : truthy ((evalN r st.env).headD V.nil) = false) :
    stepNode evalN evalIter nodes st = some { st with i := off2size nx } := by
  simp only [stepNode, h]
  rw [if_neg]
  rw [ht]
  simp

theorem step_forInit {evalN : EvalN} {evalIter : EvalIter} {nodes : List Node}
    {st : RState} {r : Nat} (h : nodes.getD st.i Node.none = Node.forInit r) :
    stepNode evalN evalIter nodes st =
      some { st with i := st.i + 1, fors := evalIter r st.env :: st.fors } := by
  simp only [stepNode, h]

theorem step_forNext_stop {evalN : EvalN} {evalIter : EvalIter} {nodes : List Node}
    {st : RState} {names : List String} {nx : Int} {f : Iter} {s c : V}
    {rest : List (Iter × V × V)}
    (h : nodes.getD st.i Node.none = Node.forNext names nx)
    (hf : st.fors = (f, s, c) :: rest)
    (hnil : (luaAdjust names.length (f s c)).headD V.nil = V.nil) :
    stepNode evalN evalIter nodes st =
      some { st with i := off2size nx, fors := rest } := by
  simp only [stepNode, h, hf]
  rw [if_pos hnil]

theorem step_forNext_go {evalN : EvalN} {evalIter : EvalIter} {nodes : List Node}
    {st : RState} {names : List String} {nx : Int} {f : Iter} {s c : V}
    {rest : List (Iter × V × V)}
    (h : nodes.getD st.i Node.none = Node.forNext names nx)
    (hf : st.fors = (f, s, c) :: rest)
    (hnil : (luaAdjust names.length (f s c)).headD V.nil ≠ V.nil) :
    stepNode evalN evalIter nodes st =
      some { st with
             i := st.i + 1
             env := bindNames st.env names (luaAdjust names.length (f s c))
             fors := (f, s, (luaAdjust names.length (f s c)).headD V.nil) :: rest } := by
  simp only [stepNode, h, hf]
  rw [if_neg hnil]

/-- Concatenation of a list of raw segments. -/
def strConcat : List String → String
  | [] => ""
  | s :: l => s ++ strConcat l

/-- `k` copies of a body string, in order. -/
def repeatStr (s : String) : Nat → String
  | 0 => ""
  | k + 1 => s ++ repeatStr s k

theorem exec_raws {evalN : EvalN} {evalIter : EvalIter} {nodes : List Node}
    (body : List String) :
    ∀ (i : Nat) (env : Env) (out : String) (fors : List (Iter × V × V)),
    (∀ j, j < body.length → nodes.getD (i + j) Node.none = Node.raw (body.getD j "")) →
    i + body.length ≤ nodes.length →
    Exec evalN evalIter nodes ⟨i, env, out, fors⟩
      ⟨i + body.length, env, out ++ strConcat body, fors⟩ := by
  induction body with
  | nil =>
    intro i env out fors _ _
    have h2 : out ++ strConcat [] = out := by simp [strConcat]
    simp only [List.length_nil, Nat.add_zero]
    rw [h2]
    exact Exec.refl _
  | cons s rest ih =>
    intro i env out fors hseg hle
    have hlt : i < nodes.length := by
      simp only [List.length_cons] at hle
      omega
    have h0 : nodes.getD i Node.none = Node.raw s := by
      have := hseg 0 (by simp)
      simpa using this
    have hstep := @step_raw evalN evalIter nodes ⟨i, env, out, fors⟩ s h0
    refine Exec.step hlt hstep ?_
    have hseg' : ∀ j, j < rest.length →
        nodes.getD (i + 1 + j) Node.none = Node.raw (rest.getD j "") := by
      intro j hj
      have := hseg (j + 1) (by simp; omega)
      have harith : i + (j + 1) = i + 1 + j := by omega
      rw [harith] at this
      simpa using this
    have hle' : i + 1 + rest.length ≤ nodes.length := by
      simp only [List.length_cons] at hle
      omega
    have hx := ih (i + 1) env (out ++ s) fors hseg' hle'
    have harith : i + 1 + rest.length = i + (s :: rest).length := by simp; omega
    have hout : (out ++ s) ++ strConcat rest = out ++ strConcat (s :: rest) := by
      simp [strConcat, String.append_assoc]
    rw [harith, hout] at hx
    exact hx

/-- The control-variable sequence of a `for` loop: `c0` initially, then the
first adjusted result of each iterator invocation. -/
def ctrlSeq (f : Iter) (s : V) (n : Nat) (c0 : V) : Nat → V
  | 0 => c0
  | j + 1 => (luaAdjust n (f s (ctrlSeq f s n c0 j))).headD V.nil

/-- The adjusted value list produced by the `j`-th iterator invocation. -/
def rowAt (f : Iter) (s : V) (n : Nat) (c0 : V) (j : Nat) : List V :=
  luaAdjust n (f s (ctrlSeq f s n c0 j))

/-- The binding context after `j` iterations of positional binding. -/
def envIter (env : Env) (names : List String) (row : Nat → List V) : Nat → Env
  | 0 => env
  | j + 1 => bindNames (envIter env names row j) names (row j)

/-- The node layout emitted for `<!-- for names in EXPR -->BODY<!-- /for -->`
with a raw-only body: `ForInit`, `ForNext` (target past the loop), the body
segments, and the back `Jump` to the `ForNext` node. -/
def forNodes (r : Nat) (names : List String) (body : List String) : List Node :=
  Node.forInit r :: Node.forNext names (Int.ofNat (3 + body.length)) ::
    (body.map Node.raw ++ [Node.jump 1])

theorem forNodes_length (r : Nat) (names : List String) (body : List String) :
    (forNodes r names body).length = 3 + body.length := by
  simp [forNodes]
  omega

theorem off2size_ofNat (m : Nat) : off2size (Int.ofNat m) = m := by
  simp [off2size]

theorem forNodes_getD_raw (r : Nat) (names : List String) (body : List String)
    (m : Nat) (hm : m < body.length) :
    (forNodes r names body).getD (2 + m) Node.none = Node.raw (body.getD m "") := by
  have h2 : 2 + m = m + 1 + 1 := by omega
  rw [forNodes, h2, List.getD_cons_succ, List.getD_cons_succ]
  have hm' : m < (body.map Node.raw).length := by simpa using hm
  rw [List.getD_eq_getElem _ _ (by simp [hm']; omega), List.getElem_append_left hm']
  rw [List.getElem_map, List.getD_eq_getElem _ _ hm]

theorem forNodes_getD_jump (r : Nat) (names : List String) (body : List String) :
    (forNodes r names body).getD (2 + body.length) Node.none = Node.jump 1 := by
  have h2 : 2 + body.length = body.length + 1 + 1 := by omega
  rw [forNodes, h2, List.getD_cons_succ, List.getD_cons_succ]
  have hlen : (body.map Node.raw).length = body.length := by simp
  rw [List.getD_eq_getElem _ _ (by simp)]
  rw [List.getElem_append_right (by omega)]
  simp [hlen]

theorem c7_loop {evalN : EvalN} {evalIter : EvalIter} {r : Nat} {names : List String}
    {body : List String} {f : Iter} {s : V} {c0 : V} {env0 : Env}
    {fors0 : List (Iter × V × V)} (k : Nat) :
    ∀ (j : Nat) (out : String),
    (∀ m, m < j + k → (rowAt f s names.length c0 m).headD V.nil ≠ V.nil) →
    (rowAt f s names.length c0 (j + k)).headD V.nil = V.nil →
    Exec evalN evalIter (forNodes r names body)
      ⟨1, envIter env0 names (rowAt f s names.length c0) j, out,
       (f, s, ctrlSeq f s names.length c0 j) :: fors0⟩
      ⟨(forNodes r names body).length,
       envIter env0 names (rowAt f s names.length c0) (j + k),
       out ++ repeatStr (strConcat body) k, fors0⟩ := by
  induction k with
  | zero =>
    intro j out _ hstop
    rw [Nat.add_zero] at hstop ⊢
    have hn : (forNodes r names body).getD 1 Node.none =
        Node.forNext names (Int.ofNat (3 + body.length)) := rfl
    have hlt : 1 < (forNodes r names body).length := by
      rw [forNodes_length]; omega
    have hstep := @step_forNext_stop evalN evalIter (forNodes r names body)
      ⟨1, envIter env0 names (rowAt f s names.length c0) j, out,
       (f, s, ctrlSeq f s names.length c0 j) :: fors0⟩
      names (Int.ofNat (3 + body.length)) f s (ctrlSeq f s names.length c0 j) fors0
      hn rfl hstop
    refine Exec.step hlt hstep ?_
    have hout : out ++ repeatStr (strConcat body) 0 = out := by
      simp [repeatStr]
    rw [hout]
    have hi : off2size (Int.ofNat (3 + body.length)) = (forNodes r names body).length := by
      rw [off2size_ofNat, forNodes_length]
    rw [hi]
    exact Exec.refl _
  | succ k ih =>
    intro j out hgo hstop
    have hne : (rowAt f s names.length c0 j).headD V.nil ≠ V.nil := by
      exact hgo j (by omega)
    have hn : (forNodes r names body).getD 1 Node.none =
        Node.forNext names (Int.ofNat (3 + body.length)) := rfl
    have hlt : 1 < (forNodes r names body).length := by
      rw [forNodes_length]; omega
    have hstep := @step_forNext_go evalN evalIter (forNodes r names body)
      ⟨1, envIter env0 names (rowAt f s names.length c0) j, out,
       (f, s, ctrlSeq f s names.length c0 j) :: fors0⟩
      names (Int.ofNat (3 + body.length)) f s (ctrlSeq f s names.length c0 j) fors0
      hn rfl hne
    refine Exec.step hlt hstep ?_
    have hraws := @exec_raws evalN evalIter (forNodes r names body) body 2
      (envIter env0 names (rowAt f s names.length c0) (j + 1)) out
      ((f, s, ctrlSeq f s names.length c0 (j + 1)) :: fors0)
      (fun m hm => forNodes_getD_raw r names body m hm)
      (by rw [forNodes_length]; omega)
    refine Exec.trans hraws ?_
    have hnj : (forNodes r names body).getD (2 + body.length) Node.none =
        Node.jump 1 := forNodes_getD_jump r names body
    have hlt2 : 2 + body.length < (forNodes r names body).length := by
      rw [forNodes_length]; omega
    have hstep2 := @step_jump evalN evalIter (forNodes r names body)
      ⟨2 + body.length, envIter env0 names (rowAt f s names.length c0) (j + 1),
       out ++ strConcat body,
       (f, s, ctrlSeq f s names.length c0 (j + 1)) :: fors0⟩ 1 hnj
    refine Exec.step hlt2 hstep2 ?_
    have harith : j + 1 + k = j + (k + 1) := by omega
    have hx := ih (j + 1) (out ++ strConcat body)
      (by rw [harith]; exact hgo) (by rw [harith]; exact hstop)
    rw [harith] at hx
    have hout : (out ++ strConcat body) ++ repeatStr (strConcat body) k =
        out ++ repeatStr (strConcat body) (k + 1) := by
      rw [String.append_assoc]
      rfl
    rw [hout] at hx
    have hoff : off2size 1 = 1 := rfl
    exact hx

/-- C7: for a compiled `for` element over a raw body, if the iterator
protocol yields no item (the first adjusted result of the first invocation is
nil) the body is rendered zero times; if it yields `K` items the body is
rendered exactly `K` times, each iteration binding the loop names
positionally to that invocation's adjusted values (missing values become
nil, per `luaAdjust`), and in either case execution converges to the node
after the loop with the `for` stack entry popped. -/
theorem c7_for_protocol (evalN : EvalN) (evalIter : EvalIter) (r : Nat)
    (names : List String) (body : List String) (env0 : Env) (out0 : String)
    (fors0 : List (Iter × V × V)) (f : Iter) (s c0 : V) (K : Nat)
    (hIter : evalIter r env0 = (f, s, c0))
    (hgo : ∀ m, m < K → (rowAt f s names.length c0 m).headD V.nil ≠ V.nil)
    (hstop : (rowAt f s names.length c0 K).headD V.nil = V.nil) :
    Exec evalN evalIter (forNodes r names body)
      ⟨0, env0, out0, fors0⟩
      ⟨(forNodes r names body).length,
       envIter env0 names (rowAt f s names.length c0) K,
       out0 ++ repeatStr (strConcat body) K, fors0⟩ := by
  have hn : (forNodes r names body).getD 0 Node.none = Node.forInit r := rfl
  have hlt : 0 < (forNodes r names body).length := by
    rw [forNodes_length]; omega
  have hstep := @step_forInit evalN evalIter (forNodes r names body)
    ⟨0, env0, out0, fors0⟩ r hn
  rw [hIter] at hstep
  refine Exec.step hlt hstep ?_
  have hx := @c7_loop evalN evalIter r names body f s c0 env0 fors0 K 0 out0
    (fun m hm => hgo m (by omega)) (by rw [Nat.zero_add]; exact hstop)
  rw [Nat.zero_add] at hx
  exact hx

def c7f : Iter := fun _ c =>
  match c with
  | V.nil => [V.int 1]
  | V.int 1 => [V.int 2]
  | _ => []

def c7EvalIter : EvalIter := fun _ _ => (c7f, V.nil, V.nil)

def c7EvalN : EvalN := fun _ _ => []

theorem c7_for_protocol_witness :
    (∀ m, m < 2 → (rowAt c7f V.nil 1 V.nil m).headD V.nil ≠ V.nil) ∧
    (rowAt c7f V.nil 1 V.nil 2).headD V.nil = V.nil ∧
    Exec c7EvalN c7EvalIter (forNodes 7 ["x"] ["A"]) ⟨0, [], "", []⟩
      ⟨4, [("x", V.int 2), ("x", V.int 1)], "AA", []⟩ := by
  refine ⟨by decide, by decide, ?_⟩
  have h := c7_for_protocol c7EvalN c7EvalIter 7 ["x"] ["A"] [] "" [] c7f V.nil V.nil 2
    rfl (by decide) (by decide)
  exact h

/-- Total node count of a compiled `if`/`elseif`/`else` chain: each branch
contributes its `If` node, its body, and a trailing chain `Jump` - except the
last branch of an else-less chain, whose `If` falls through to the chain end
directly; an `else` body contributes its bare segments. -/
def chainLen : List (Nat × List String) → Option (List String) → Nat
  | [], Option.none => 0
  | [], some e => e.length
  | b :: rest, els =>
    match rest, els with
    | [], Option.none => 1 + b.2.length
    | _, _ => 2 + b.2.length + chainLen rest els

/-- The node layout the parser emits for an `if`/`elseif`/`else` chain
starting at index `pos` whose end (the node after the chain) is `endT`: each
`If` node targets the next branch (patched by `template_parse_elseif` /
`template_parse_else`), each chain `Jump` targets the end (patched by the
`walk` loop of `template_parse_close`), and the last `If` of an else-less
chain targets the end itself. -/
def buildChain (pos endT : Nat) : List (Nat × List String) → Option (List String) → List Node
  | [], Option.none => []
  | [], some e => e.map Node.raw
  | b :: rest, els =>
    match rest, els with
    | [], Option.none => Node.if_ b.1 (Int.ofNat endT) :: b.2.map Node.raw
    | _, _ =>
      Node.if_ b.1 (Int.ofNat (pos + 2 + b.2.length)) ::
        (b.2.map Node.raw ++
          Node.jump (Int.ofNat endT) :: buildChain (pos + 2 + b.2.length) endT rest els)

/-- The body the chain semantics selects: the first branch whose condition
evaluates truthy, else the `else` body, else nothing. -/
def select (evalN : EvalN) (env : Env) :
    List (Nat × List String) → Option (List String) → List String
  | [], Option.none => []
  | [], some e => e
  | b :: rest, els =>
    if truthy ((evalN b.1 env).headD V.nil) then b.2 else select evalN env rest els

theorem bool_ne_true {x : Bool} (h : x = false) : ¬ x = true := by
  rw [h]
  simp

theorem select_cons {evalN : EvalN} {env : Env} {b : Nat × List String}
    {rest : List (Nat × List String)} {els : Option (List String)} :
    select evalN env (b :: rest) els =
      if truthy ((evalN b.1 env).headD V.nil) then b.2 else select evalN env rest els := rfl

theorem chainLen_cons {b : Nat × List String} {rest : List (Nat × List String)}
    {els : Option (List String)} (h : rest ≠ [] ∨ els ≠ Option.none) :
    chainLen (b :: rest) els = 2 + b.2.length + chainLen rest els := by
  cases rest with
  | nil =>
    cases els with
    | none =>
      rcases h with h | h
      · exact absurd rfl h
      · exact absurd rfl h
    | some e => rfl
  | cons b' r => rfl

theorem buildChain_cons {b : Nat × List String} {rest : List (Nat × List String)}
    {els : Option (List String)} (pos endT : Nat) (h : rest ≠ [] ∨ els ≠ Option.none) :
    buildChain pos endT (b :: rest) els =
      Node.if_ b.1 (Int.ofNat (pos + 2 + b.2.length)) ::
        (b.2.map Node.raw ++
          Node.jump (Int.ofNat endT) :: buildChain (pos + 2 + b.2.length) endT rest els) := by
  cases rest with
  | nil =>
    cases els with
    | none =>
      rcases h with h | h
      · exact absurd rfl h
      · exact absurd rfl h
    | some e => rfl
  | cons b' r => rfl

theorem getD_append_plus {α : Type _} (l1 l2 : List α) (m : Nat) (d : α) :
    (l1 ++ l2).getD (l1.length + m) d = l2.getD m d := by
  induction l1 with
  | nil => simp
  | cons a t ih =>
    have h : (a :: t).length + m = (t.length + m) + 1 := by
      simp
      omega
    rw [h, List.cons_append, List.getD_cons_succ]
    exact ih

theorem chain_exec {evalN : EvalN} {evalIter : EvalIter} {nodes : List Node}
    (bs : List (Nat × List String)) :
    ∀ (els : Option (List String)) (pos : Nat) (env : Env) (out : String)
      (fors : List (Iter × V × V)),
    (∀ j, j < chainLen bs els →
      nodes.getD (pos + j) Node.none =
        (buildChain pos (pos + chainLen bs els) bs els).getD j Node.none) →
    pos + chainLen bs els ≤ nodes.length →
    Exec evalN evalIter nodes ⟨pos, env, out, fors⟩
      ⟨pos + chainLen bs els, env, out ++ strConcat (select evalN env bs els), fors⟩ := by
  induction bs with
  | nil =>
    intro els pos env out fors hseg hle
    cases els with
    | none =>
      have h2 : out ++ strConcat (select evalN env [] Option.none) = out := by
        simp [select, strConcat]
      rw [h2]
      have h1 : chainLen ([] : List (Nat × List String)) Option.none = 0 := rfl
      rw [h1, Nat.add_zero]
      exact Exec.refl _
    | some e =>
      have h1 : chainLen ([] : List (Nat × List String)) (some e) = e.length := rfl
      have h3 : select evalN env [] (some e) = e := rfl
      rw [h1, h3]
      refine @exec_raws evalN evalIter nodes e pos env out fors ?_ ?_
      · intro j hj
        have := hseg j (by rw [h1]; exact hj)
        rw [this, h1]
        have hj' : j < (e.map Node.raw).length := by simpa using hj
        show (buildChain pos (pos + e.length) [] (some e)).getD j Node.none = _
        have hb : buildChain pos (pos + e.length) [] (some e) = e.map Node.raw := rfl
        rw [hb, List.getD_eq_getElem _ _ hj', List.getElem_map,
          List.getD_eq_getElem _ _ hj]
      · rw [h1] at hle
        exact hle
  | cons b rest ih =>
    intro els pos env out fors hseg hle
    by_cases hne : rest = [] ∧ els = Option.none
    · rcases hne with ⟨h1, h2⟩
      subst h1
      subst h2
      have hL : chainLen [b] Option.none = 1 + b.2.length := rfl
      have hB : buildChain pos (pos + chainLen [b] Option.none) [b] Option.none =
          Node.if_ b.1 (Int.ofNat (pos + chainLen [b] Option.none)) :: b.2.map Node.raw := rfl
      have hn0 : nodes.getD pos Node.none =
          Node.if_ b.1 (Int.ofNat (pos + chainLen [b] Option.none)) := by
        have := hseg 0 (by rw [hL]; omega)
        rw [Nat.add_zero] at this
        rw [this, hB]
        rfl
      have hlt0 : pos < nodes.length := by
        rw [hL] at hle
        omega
      cases hb : truthy ((evalN b.1 env).headD V.nil) with
      | true =>
        have hstep := @step_if_true evalN evalIter nodes ⟨pos, env, out, fors⟩ b.1
          (Int.ofNat (pos + chainLen [b] Option.none)) hn0 hb
        refine Exec.step hlt0 hstep ?_
        have hsel : select evalN env [b] Option.none = b.2 := by
          rw [select_cons, if_pos hb]
        rw [hsel]
        have hx := @exec_raws evalN evalIter nodes b.2 (pos + 1) env out fors ?_ ?_
        · have harith : pos + 1 + b.2.length = pos + chainLen [b] Option.none := by
            rw [hL]; omega
          rw [harith] at hx
          exact hx
        · intro j hj
          have := hseg (1 + j) (by rw [hL]; omega)
          have harith : pos + (1 + j) = pos + 1 + j := by omega
          rw [harith] at this
          rw [this, hB]
          have hj' : j < (b.2.map Node.raw).length := by simpa using hj
          show (Node.if_ b.1 _ :: b.2.map Node.raw).getD (1 + j) Node.none = _
          have h1j : 1 + j = j + 1 := by omega
          rw [h1j, List.getD_cons_succ, List.getD_eq_getElem _ _ hj',
            List.getElem_map, List.getD_eq_getElem _ _ hj]
        · rw [hL] at hle
          omega
      | false =>
        have hstep := @step_if_false evalN evalIter nodes ⟨pos, env, out, fors⟩ b.1
          (Int.ofNat (pos + chainLen [b] Option.none)) hn0 hb
        refine Exec.step hlt0 hstep ?_
        have hsel : select evalN env [b] Option.none = [] := by
          rw [select_cons, if_neg (bool_ne_true hb)]
          rfl
        rw [hsel]
        have hout : out ++ strConcat [] = out := by simp [strConcat]
        rw [hout]
        have hoff : off2size (Int.ofNat (pos + chainLen [b] Option.none)) =
            pos + chainLen [b] Option.none := off2size_ofNat _
        rw [hoff]
        exact Exec.refl _
    · have hne' : rest ≠ [] ∨ els ≠ Option.none := by
        by_cases h1 : rest = []
        · right
          intro h2
          exact hne ⟨h1, h2⟩
        · left
          exact h1
      have hL := @chainLen_cons b rest els hne'
      have hB := @buildChain_cons b rest els
        pos (pos + chainLen (b :: rest) els) hne'
      have hn0 : nodes.getD pos Node.none =
          Node.if_ b.1 (Int.ofNat (pos + 2 + b.2.length)) := by
        have := hseg 0 (by rw [hL]; omega)
        rw [Nat.add_zero] at this
        rw [this, hB]
        rfl
      have hlt0 : pos < nodes.length := by
        rw [hL] at hle
        omega
      cases hb : truthy ((evalN b.1 env).headD V.nil) with
      | true =>
        have hstep := @step_if_true evalN evalIter nodes ⟨pos, env, out, fors⟩ b.1
          (Int.ofNat (pos + 2 + b.2.length)) hn0 hb
        refine Exec.step hlt0 hstep ?_
        have hsel : select evalN env (b :: rest) els = b.2 := by
          rw [select_cons, if_pos hb]
        rw [hsel]
        have hraws := @exec_raws evalN evalIter nodes b.2 (pos + 1) env out fors ?_ ?_
        · refine Exec.trans hraws ?_
          have hnj : nodes.getD (pos + 1 + b.2.length) Node.none =
              Node.jump (Int.ofNat (pos + chainLen (b :: rest) els)) := by
            have := hseg (1 + b.2.length) (by rw [hL]; omega)
            have harith : pos + (1 + b.2.length) = pos + 1 + b.2.length := by omega
            rw [harith] at this
            rw [this, hB]
            show (Node.if_ b.1 _ :: (b.2.map Node.raw ++ Node.jump _ :: _)).getD
              (1 + b.2.length) Node.none = _
            have h1j : 1 + b.2.length = b.2.length + 1 := by omega
            rw [h1j, List.getD_cons_succ]
            have hlen : (b.2.map Node.raw).length = b.2.length := by simp
            rw [List.getD_eq_getElem _ _ (by simp)]
            rw [List.getElem_append_right (by omega)]
            simp [hlen]
          have hlt1 : pos + 1 + b.2.length < nodes.length := by
            rw [hL] at hle
            omega
          have hstep2 := @step_jump evalN evalIter nodes
            ⟨pos + 1 + b.2.length, env, out ++ strConcat b.2, fors⟩
            (Int.ofNat (pos + chainLen (b :: rest) els)) hnj
          refine Exec.step hlt1 hstep2 ?_
          have hoff : off2size (Int.ofNat (pos + chainLen (b :: rest) els)) =
              pos + chainLen (b :: rest) els := off2size_ofNat _
          rw [hoff]
          exact Exec.refl _
        · intro j hj
          have := hseg (1 + j) (by rw [hL]; omega)
          have harith : pos + (1 + j) = pos + 1 + j := by omega
          rw [harith] at this
          rw [this, hB]
          have hj' : j < (b.2.map Node.raw).length := by simpa using hj
          show (Node.if_ b.1 _ :: (b.2.map Node.raw ++ _)).getD (1 + j) Node.none = _
          have h1j : 1 + j = j + 1 := by omega
          rw [h1j, List.getD_cons_succ]
          rw [List.getD_eq_getElem _ _ (by simp; omega)]
          rw [List.getElem_append_left hj']
          rw [List.getElem_map, List.getD_eq_getElem _ _ hj]
        · rw [hL] at hle
          omega
      | false =>
        have hstep := @step_if_false evalN evalIter nodes ⟨pos, env, out, fors⟩ b.1
          (Int.ofNat (pos + 2 + b.2.length)) hn0 hb
        refine Exec.step hlt0 hstep ?_
        have hsel : select evalN env (b :: rest) els = select evalN env rest els := by
          rw [select_cons, if_neg (bool_ne_true hb)]
        rw [hsel]
        have hoff : off2size (Int.ofNat (pos + 2 + b.2.length)) = pos + 2 + b.2.length :=
          off2size_ofNat _
        rw [hoff]
        have hx := ih els (pos + 2 + b.2.length) env out fors ?_ ?_
        · have harith : pos + 2 + b.2.length + chainLen rest els =
              pos + chainLen (b :: rest) els := by
            rw [hL]; omega
          rw [harith] at hx
          exact hx
        · intro j hj
          have := hseg (2 + b.2.length + j) (by rw [hL]; omega)
          have harith : pos + (2 + b.2.length + j) = pos + 2 + b.2.length + j := by omega
          rw [harith] at this
          rw [this, hB]
          show (Node.if_ b.1 _ ::
            (b.2.map Node.raw ++ Node.jump _ ::
              buildChain (pos + 2 + b.2.length) (pos + chainLen (b :: rest) els) rest els)).getD
            (2 + b.2.length + j) Node.none = _
          have h1j : 2 + b.2.length + j = (1 + b.2.length + j) + 1 := by omega
          rw [h1j, List.getD_cons_succ]
          have hlen : (b.2.map Node.raw).length = b.2.length := by simp
          have hsplit : 1 + b.2.length + j = (b.2.map Node.raw).length + (1 + j) := by
            simp
            omega
          rw [hsplit, getD_append_plus]
          have h2j : 1 + j = j + 1 := by omega
          rw [h2j, List.getD_cons_succ]
          have harith2 : pos + 2 + b.2.length + chainLen rest els =
              pos + chainLen (b :: rest) els := by
            rw [hL]; omega
          rw [harith2]
        · rw [hL] at hle
          omega

theorem buildChain_length (bs : List (Nat × List String)) :
    ∀ (pos endT : Nat) (els : Option (List String)),
    (buildChain pos endT bs els).length = chainLen bs els := by
  induction bs with
  | nil =>
    intro pos endT els
    cases els with
    | none => rfl
    | some e => simp [buildChain, chainLen]
  | cons b rest ih =>
    intro pos endT els
    by_cases h : rest = [] ∧ els = Option.none
    · rcases h with ⟨h1, h2⟩
      subst h1
      subst h2
      show (Node.if_ b.1 (Int.ofNat endT) :: b.2.map Node.raw).length = 1 + b.2.length
      simp
      omega
    · have hne : rest ≠ [] ∨ els ≠ Option.none := by
        by_cases h1 : rest = []
        · right
          intro h2
          exact h ⟨h1, h2⟩
        · left
          exact h1
      rw [buildChain_cons pos endT hne, chainLen_cons hne]
      simp [ih]
      omega

/-- C2: for every compiled `if`/`elseif`/`else` chain of `N` branches with
raw bodies and every truth assignment to the branch conditions (via the
evaluation oracle), rendering appends to the output exactly the body of the
first branch whose condition is truthy - or the `else` body if present and
all conditions are falsy, or nothing when no condition is truthy and no
`else` exists - and execution converges to the node after the chain with the
binding context unchanged. -/
theorem c2_chain_first_truthy (evalN : EvalN) (evalIter : EvalIter)
    (bs : List (Nat × List String)) (els : Option (List String))
    (env : Env) (out : String) (fors : List (Iter × V × V)) :
    Exec evalN evalIter (buildChain 0 (chainLen bs els) bs els)
      ⟨0, env, out, fors⟩
      ⟨chainLen bs els, env, out ++ strConcat (select evalN env bs els), fors⟩ := by
  have hx := @chain_exec evalN evalIter (buildChain 0 (chainLen bs els) bs els) bs els
    0 env out fors ?_ ?_
  · rw [Nat.zero_add] at hx
    exact hx
  · intro j hj
    rw [Nat.zero_add, Nat.zero_add]
  · rw [Nat.zero_add, buildChain_length]

/-- The parser emits exactly the `buildChain` layout: a two-branch chain
with `else` and a one-branch chain without, compiled through the translated
parse handlers, produce the `buildChain` node lists node for node. -/
theorem chain_compile_layout :
    compileEvents [PEvent.eOpenIf 1, PEvent.eRaw "A", PEvent.eRaw "B",
        PEvent.eElseif 2, PEvent.eRaw "C", PEvent.eElse, PEvent.eRaw "D",
        PEvent.eCloseIf] =
      Except.ok (buildChain 0 (chainLen [(1, ["A", "B"]), (2, ["C"])] (some ["D"]))
        [(1, ["A", "B"]), (2, ["C"])] (some ["D"])) ∧
    compileEvents [PEvent.eOpenIf 5, PEvent.eRaw "X", PEvent.eCloseIf] =
      Except.ok (buildChain 0 (chainLen [(5, ["X"])] Option.none)
        [(5, ["X"])] Option.none) := by
  constructor
  · rfl
  · rfl

/-- The parser emits exactly the `forNodes` layout for a `for` element with
a raw body. -/
theorem for_compile_layout :
    compileEvents [PEvent.eOpenFor 7 "x", PEvent.eRaw "A", PEvent.eCloseFor] =
      Except.ok (forNodes 7 ["x"] ["A"]) := by
  rfl

end LuaTemplate
